import Mathlib

/-!
Shallow embedding of the efoodScraper deal-extraction core
(`src/vfm.py`, `src/catalog_parser.py`, `src/api_client.py`, the
ranking/batch glue of `src/scraper.py`) together with proofs about the
behaviour claimed in the specification.

Modelling conventions:
* Python `float` arithmetic is modelled exactly: prices, ratings and the
  rounded metric fields are rational numbers (`ℚ`), the unrounded areas are
  real numbers (`ℝ`, with the exact `π`).  `round(x, 2)` is modelled as
  exact rounding to the nearest multiple of `1/100`.
* Python `None` is `Option.none`; Python truthiness of a number is
  "present and nonzero", of a string "nonempty", of a container "nonempty".
* Exceptions are modelled with `Except String`; a Python function that can
  raise returns `Except String α`.
* The JSON catalog documents are modelled as records whose fields are the
  fields the source reads via `.get(...)`; a missing JSON field is the
  recorded default, exactly as in the source.
* Regular-expression scanning (`re.search`) is modelled by explicit
  recursive scanners with the same match semantics; `\d` and `\s` are
  modelled over the ASCII ranges, which is what the catalog texts use.
* Python `str.lower()` is modelled by `pyLower`, a character map covering
  the Latin and Greek alphabets (including the contextual final-sigma rule
  of Unicode lowercasing) — the alphabets this program works with.
-/

/-- ASCII whitespace accepted by the regex class `\s`. -/
def isPySpace (c : Char) : Bool :=
  c = ' ' || c = '\t' || c = '\n' || c = '\x0d' || c = '\x0b' || c = '\x0c'

/-- Numeric value of a string of decimal digits, as `int()` computes it. -/
def natOfDigits (ds : List Char) : Nat :=
  ds.foldl (fun n c => 10 * n + (c.toNat - 48)) 0

/-- Substring test over character lists: Python's `needle in hay`. -/
def hasSubList (needle : List Char) : List Char → Bool
  | [] => needle.isEmpty
  | c :: cs => needle.isPrefixOf (c :: cs) || hasSubList needle cs

/-- Python `needle in haystack` (substring containment). -/
def hasSub (needle haystack : String) : Bool :=
  hasSubList needle.toList haystack.toList

/-- Single-character lowercase map for the Latin and monotonic-Greek
letters this program manipulates (capital sigma is handled contextually in
`pyLowerList`). -/
def lowerChar (c : Char) : Char :=
  if 'A' ≤ c ∧ c ≤ 'Z' then Char.ofNat (c.toNat + 32)
  else if 'Α' ≤ c ∧ c ≤ 'Ρ' then Char.ofNat (c.toNat + 32)
  else if 'Τ' ≤ c ∧ c ≤ 'Ω' then Char.ofNat (c.toNat + 32)
  else if c = 'Σ' then 'σ'
  else if c = 'Ά' then 'ά'
  else if c = 'Έ' then 'έ'
  else if c = 'Ή' then 'ή'
  else if c = 'Ί' then 'ί'
  else if c = 'Ό' then 'ό'
  else if c = 'Ύ' then 'ύ'
  else if c = 'Ώ' then 'ώ'
  else c

/-- A cased letter, for the Unicode `Final_Sigma` context of `str.lower()`
(restricted to the Latin/Greek alphabets in play). -/
def isCasedChar (c : Char) : Bool :=
  ('A' ≤ c ∧ c ≤ 'Z') || ('a' ≤ c ∧ c ≤ 'z') ||
  ('Ά' ≤ c ∧ c ≤ 'ώ' ∧ c ≠ '·')

/-- Whether a character list starts with a cased letter. -/
def headCased : List Char → Bool
  | [] => false
  | d :: _ => isCasedChar d

/-- Lowercasing of a character list as Python `str.lower()` does it: the
only context-sensitive case is capital sigma, lowered to final `ς` when
preceded by a cased letter and not followed by one. -/
def pyLowerList : Bool → List Char → List Char
  | _, [] => []
  | prevCased, c :: cs =>
    if c = 'Σ' then
      (if prevCased && !(headCased cs) then 'ς' else 'σ') :: pyLowerList true cs
    else
      lowerChar c :: pyLowerList (isCasedChar c) cs

/-- Python `text.lower()`. -/
def pyLower (s : String) : String :=
  String.mk (pyLowerList false s.toList)

/-! ### The generic numeric scanner

Both `re.search(r"(\d+)\s*cm", text)` (diameter) and
`re.search(r"(\d+)\s*[Ππ]ίτσ", title)` (quantity) are instances of the
pattern `(\d+)\s*TAIL` where `TAIL` matches a prefix of the remaining text
starting with a character that is neither a digit nor whitespace.
`scanNum tail` reproduces `re.search`'s leftmost-match semantics for this
shape: at the first digit of each maximal digit run, the run is taken
greedily, then any whitespace, then `tail` is tried; on failure the scan
resumes after the run (no match starting inside the run can succeed,
because the character that follows a shorter digit prefix is a digit). -/
def scanNumAux (tail : List Char → Bool) : Option Nat → List Char → Option Nat
  | none, [] => none
  | some acc, [] => if tail [] then some acc else none
  | none, c :: cs =>
    if c.isDigit then scanNumAux tail (some (c.toNat - 48)) cs
    else scanNumAux tail none cs
  | some acc, c :: cs =>
    if c.isDigit then scanNumAux tail (some (10 * acc + (c.toNat - 48))) cs
    else if tail ((c :: cs).dropWhile isPySpace) then some acc
    else scanNumAux tail none cs

/-- Model of `re.search(r"(\d+)\s*TAIL", text)` for a tail pattern `TAIL`,
returning `int` of the digit group of the leftmost match. -/
def scanNum (tail : List Char → Bool) (l : List Char) : Option Nat :=
  scanNumAux tail none l

/-- The tail test for the diameter regex: a case-insensitive literal `cm`. -/
def tailCm : List Char → Bool
  | c :: m :: _ => (c = 'c' || c = 'C') && (m = 'm' || m = 'M')
  | _ => false

/-- The tail test for the quantity regex: `[Ππ]ίτσ`. -/
def tailPizza : List Char → Bool
  | p :: r => (p = 'Π' || p = 'π') && ['ί', 'τ', 'σ'].isPrefixOf r
  | [] => false

/-- Declarative reading of the spec's regex `(\d+)\s*TAIL`: the text
contains, somewhere, a nonempty digit run, then optional whitespace, then
the tail pattern.  Stated from the spec, to be compared with the
scanner. -/
def NumMatch (tail : List Char → Bool) (l : List Char) : Prop :=
  ∃ p d w r, l = p ++ d ++ w ++ r ∧ d ≠ [] ∧ (∀ c ∈ d, c.isDigit = true) ∧
    (∀ c ∈ w, isPySpace c = true) ∧ tail r = true

/-- Like `NumMatch` but anchored at the start of the text with a possibly
empty digit run: the pattern as seen from the middle of a digit run. -/
def MidMatch (tail : List Char → Bool) (l : List Char) : Prop :=
  ∃ d w r, l = d ++ w ++ r ∧ (∀ c ∈ d, c.isDigit = true) ∧
    (∀ c ∈ w, isPySpace c = true) ∧ tail r = true

/-- A well-behaved tail pattern starts with a character that is neither a
digit nor whitespace (true of both `cm` and `[Ππ]ίτσ`). -/
def TailOk (tail : List Char → Bool) : Prop :=
  ∀ r, tail r = true →
    ∃ c r2, r = c :: r2 ∧ c.isDigit = false ∧ isPySpace c = false

namespace vfm

/-- Exact model of `round(x, 2)` on floats: round to the nearest multiple
of 1/100 (the result is always a rational number). -/
noncomputable def round2 (x : ℝ) : ℚ :=
  (round (x * 100) : ℤ) / 100

/-- Function `pizza_area` of `src/vfm.py`: `math.pi * (diameter_cm / 2) ** 2`. -/
noncomputable def pizza_area (diameter_cm : ℕ) : ℝ :=
  Real.pi * ((diameter_cm : ℝ) / 2) ^ 2

/-- Record `VFMMetrics` of `src/models.py`; every numeric field of the Python
record holds a value already rounded to two decimals, hence rational. -/
structure VFMMetrics where
  quantity : ℕ
  diameter_cm : ℕ
  single_area_cm2 : ℚ
  total_area_cm2 : ℚ
  area_per_euro : ℚ
  rating_factor : ℚ
  vfm_index : ℚ
deriving DecidableEq, Repr

/-- The expression `(rating or 5.0)` of `src/vfm.py` line 25: Python `or`
falls through not only on `None` but also on a zero rating. -/
def ratingOrFive (rating : Option ℚ) : ℚ :=
  match rating with
  | none => 5
  | some r => if r = 0 then 5 else r

/-- Function `calculate_vfm` of `src/vfm.py`. -/
noncomputable def calculate_vfm (quantity : ℕ) (diameter_cm : ℕ) (price : ℚ)
    (rating : Option ℚ) : Except String VFMMetrics :=
  if price ≤ 0 then .error ("Price must be positive") else
  let single_area : ℝ := pizza_area diameter_cm
  let total_area : ℝ := (quantity : ℝ) * single_area
  let rating_factor : ℚ := ratingOrFive rating / 5
  let area_per_euro : ℝ := total_area / (price : ℝ)
  let vfm_index : ℝ := area_per_euro * (rating_factor : ℝ)
  .ok {
    quantity := quantity
    diameter_cm := diameter_cm
    single_area_cm2 := round2 single_area
    total_area_cm2 := round2 total_area
    area_per_euro := round2 area_per_euro
    rating_factor := round2 (rating_factor : ℝ)
    vfm_index := round2 vfm_index
  }

/-- Function `parse_diameter` of `src/vfm.py`: `re.search(r"(\d+)\s*cm", text,
re.IGNORECASE)`, first match, as an integer. -/
def parse_diameter (text : String) : Option ℕ :=
  scanNum tailCm text.toList

end vfm

namespace efood

/-- An item of a tier (or of a category), as read by the source through
`item.get("title"/"name"/"description"/"category_name")`. -/
structure Item where
  title : String
  name : String
  description : String
  category_name : String
deriving DecidableEq, Repr

/-- A tier of an offer: `tier.get("quantity", 1)`, `tier.get("items", [])`. -/
structure Tier where
  quantity : ℕ
  items : List Item
deriving DecidableEq, Repr

/-- An offer record (also used for the plain items of a category, which
the file pipeline feeds to `_parse_offer` unchanged).  Fields are exactly
those the source reads. -/
structure Offer where
  title : String
  name : String
  description : String
  category_name : String
  price : Option ℚ
  calculated_price : Option String
  tiers : List Tier
deriving DecidableEq, Repr

/-- A category: `cat.get("name"/"title"/"items"/"offers")`. -/
structure Category where
  name : String
  title : String
  items : List Offer
  offers : List Offer
deriving DecidableEq, Repr

/-- A catalog document: top-level `status` and
`data.menu.categories`. -/
structure CatalogDoc where
  status : String
  categories : List Category
deriving DecidableEq, Repr

/-- A deal, `Deal` of `src/models.py`. -/
structure Deal where
  name : String
  quantity : ℕ
  size_cm : ℕ
  price : ℚ
  vfm : vfm.VFMMetrics
deriving DecidableEq, Repr

/-- Table `SIZE_DIAMETERS` of `src/config.py`. -/
def SIZE_DIAMETERS : List (String × ℕ) :=
  [("μικρή", 25), ("κανονική", 30), ("μεσαία", 32), ("μεγάλη", 36),
   ("οικογενειακή", 36), ("γίγας", 40), ("jumbo", 45)]

/-- Record `ParsedDeal` of `src/catalog_parser.py`. -/
structure ParsedDeal where
  title : String
  price : Option ℚ
  quantity : ℕ
  size_name : Option String
  size_cm : Option ℕ
  category_name : String
deriving DecidableEq, Repr

/-- Function `extract_size_from_text` of `src/catalog_parser.py`: lowercase the
text, then an ordered chain of substring tests. -/
def extract_size_from_text (text : String) : Option String :=
  let lower := pyLower text
  if hasSub "γίγας" lower || hasSub "γιγας" lower then some "γίγας"
  else if hasSub "οικογενειακ" lower then some "οικογενειακή"
  else if hasSub "μεγάλ" lower then some "μεγάλη"
  else if hasSub "κανονικ" lower then some "κανονική"
  else if hasSub "μικρ" lower then some "μικρή"
  else none

/-- Function `extract_quantity_from_title` of `src/catalog_parser.py`:
`re.search(r"(\d+)\s*[Ππ]ίτσ", title)`, defaulting to 1. -/
def extract_quantity_from_title (title : String) : ℕ :=
  match scanNum tailPizza title.toList with
  | some n => n
  | none => 1

/-- The keyword table local to `discover_store_sizes`, in its Python
insertion order (the scan stops at the first key found in the text). -/
def size_keywords : List (String × String) :=
  [("ατομικ", "μικρή"), ("κανονικ", "κανονική"), ("μεσαι", "μεσαία"),
   ("μεγαλ", "μεγάλη"), ("οικογενειακ", "οικογενειακή"), ("γιγας", "γίγας"),
   ("γίγας", "γίγας"), ("jumbo", "jumbo"), ("τετραγων", "jumbo")]

/-- One call of the inner `extract_size_mapping(text)` of
`discover_store_sizes`, acting on the accumulated map: if the fragment
yields a (truthy) diameter and contains a table keyword, the first
matching keyword's normalized name is bound to that diameter unless
already present. -/
def extract_size_mapping (m : List (String × ℕ)) (text : String) : List (String × ℕ) :=
  match vfm.parse_diameter text with
  | none => m
  | some cm =>
    if cm = 0 then m else
    match size_keywords.find? (fun kv => hasSub kv.1 (pyLower text)) with
    | none => m
    | some kv =>
      if (m.lookup kv.2).isSome then m else m ++ [(kv.2, cm)]

/-- The fragments of one category in the scan order of
`discover_store_sizes`: category name, category title, each item's
description then title-or-name (Python `or`, so an empty title falls back
to the name), then each offer's tier items' category-name then
description. -/
def categoryFragments (cat : Category) : List String :=
  [cat.name, cat.title]
  ++ cat.items.flatMap (fun it =>
      [it.description, if it.title = "" then it.name else it.title])
  ++ cat.offers.flatMap (fun o => o.tiers.flatMap (fun t =>
      t.items.flatMap (fun it => [it.category_name, it.description])))

/-- Function `discover_store_sizes` of `src/catalog_parser.py`. -/
def discover_store_sizes (categories : List Category) : List (String × ℕ) :=
  (categories.flatMap categoryFragments).foldl extract_size_mapping []

/-- Function `_parse_calculated_price` of `src/catalog_parser.py`: drop `€`, turn
commas into dots, then `re.search(r"(\d+\.?\d*)", ...)` and `float` of the
match (`strip()` cannot affect the first numeric token and is omitted). -/
def scanPrice : List Char → Option ℚ
  | [] => none
  | c :: cs =>
    if c.isDigit then
      some (
        let intPart : ℕ := natOfDigits (c :: cs.takeWhile Char.isDigit)
        match cs.dropWhile Char.isDigit with
        | '.' :: rest =>
          let frac := rest.takeWhile Char.isDigit
          (intPart : ℚ) + (natOfDigits frac : ℚ) / (10 : ℚ) ^ frac.length
        | _ => (intPart : ℚ))
    else scanPrice cs

/-- Python truthiness check `if not text` plus the cleaning and scan. -/
def _parse_calculated_price (text : Option String) : Option ℚ :=
  match text with
  | none => none
  | some s =>
    if s = "" then none
    else scanPrice ((s.toList.filter (fun c => c ≠ '€')).map
      (fun c => if c = ',' then '.' else c))

/-- The pizza-title filter `re.search(r"[Ππ]ίτσ", title)`. -/
def pizzaTitle (title : String) : Bool :=
  hasSub "Πίτσ" title || hasSub "πίτσ" title

/-- The pizza-tier test `re.search(r"[Ππ]ίτσ|[Γγ]ίγας|[Οο]ικογενειακ",
item_cat)`. -/
def pizzaTierCat (s : String) : Bool :=
  hasSub "Πίτσ" s || hasSub "πίτσ" s || hasSub "Γίγας" s || hasSub "γίγας" s ||
  hasSub "Οικογενειακ" s || hasSub "οικογενειακ" s

/-- The running state of the per-tier loop of `_parse_offer`:
`pizza_quantity`, `candidate_size_text`, `size_name`. -/
structure TierAcc where
  qty : ℕ
  candidate : String
  size_name : Option String
deriving DecidableEq, Repr

/-- One iteration of the per-tier loop of `_parse_offer` (lines 200-221):
a tier with no items is skipped; a pizza tier adds its quantity, replaces
the candidate size text, and supplies the size name if none was found
yet. -/
def tierStep (acc : TierAcc) (tier : Tier) : TierAcc :=
  match tier.items with
  | [] => acc
  | first :: _ =>
    if pizzaTierCat first.category_name then
      { qty := acc.qty + tier.quantity
        candidate := first.category_name
        size_name :=
          match acc.size_name with
          | some s => some s
          | none => extract_size_from_text first.category_name }
    else acc

/-- The whole per-tier loop of `_parse_offer`. -/
def tierScan (tiers : List Tier) : TierAcc :=
  tiers.foldl tierStep { qty := 0, candidate := "", size_name := none }

/-- Python numeric truthiness of an optional number. -/
def truthyNat (o : Option ℕ) : Bool :=
  match o with
  | some n => n ≠ 0
  | none => false

/-- Python numeric truthiness of an optional rational. -/
def truthyRat (o : Option ℚ) : Bool :=
  match o with
  | some q => q ≠ 0
  | none => false

/-- Priority 2 of `_parse_offer`: the first tier (with items and a
nonempty first-item description) whose description yields a truthy
diameter. -/
def tiersDescDiameter : List Tier → Option ℕ
  | [] => none
  | t :: ts =>
    match t.items with
    | [] => tiersDescDiameter ts
    | first :: _ =>
      if first.description = "" then tiersDescDiameter ts
      else
        match vfm.parse_diameter first.description with
        | some n => if n = 0 then tiersDescDiameter ts else some n
        | none => tiersDescDiameter ts

/-- The diameter priority chain of `_parse_offer` (lines 231-261).  Each
step replaces the current value only when the current value is falsy
(`None` or `0`); step 1 and step 4 can themselves store a falsy value,
exactly as the Python assignments do. -/
def sizeChain (title candidate : String) (tiers : List Tier)
    (size_name : Option String) (store_size_map : List (String × ℕ)) : Option ℕ :=
  -- Priority 0: explicit size in the title
  let s1 : Option ℕ :=
    match vfm.parse_diameter title with
    | some n => if n = 0 then none else some n
    | none => none
  -- Priority 1: the candidate tier category text (unconditional assignment)
  let s2 : Option ℕ :=
    if !truthyNat s1 && candidate ≠ "" then vfm.parse_diameter candidate else s1
  -- Priority 2: first truthy diameter among tier first-item descriptions
  let s3 : Option ℕ :=
    if !truthyNat s2 && !tiers.isEmpty then
      match tiersDescDiameter tiers with
      | some n => some n
      | none => s2
    else s2
  -- Priority 3: store-specific map (unconditional assignment of the value)
  let s4 : Option ℕ :=
    match size_name with
    | some nm =>
      if !truthyNat s3 then
        match store_size_map.lookup nm with
        | some v => some v
        | none => s3
      else s3
    | none => s3
  -- Priority 4: global defaults (this assignment may store `None`,
  -- discarding a zero stored by an earlier step)
  if !truthyNat s4 then
    match size_name with
    | some nm => SIZE_DIAMETERS.lookup nm
    | none => none
  else s4

/-- The Python conditional expression `n if n > 0 else 1` used for the
final quantity of `_parse_offer`. -/
def atLeastOne (n : ℕ) : ℕ :=
  if n > 0 then n else 1

/-- Function `_parse_offer` of `src/catalog_parser.py`. -/
def _parse_offer (offer : Offer) (store_size_map : List (String × ℕ)) :
    Option ParsedDeal :=
  if !pizzaTitle offer.title then none else
  let price : Option ℚ :=
    match offer.price with
    | some p => some p
    | none => _parse_calculated_price offer.calculated_price
  let acc := tierScan offer.tiers
  let size_name : Option String :=
    match acc.size_name with
    | some s => some s
    | none => extract_size_from_text offer.title
  let quantity : ℕ :=
    if acc.qty = 0 then extract_quantity_from_title offer.title else acc.qty
  let size_cm := sizeChain offer.title acc.candidate offer.tiers size_name store_size_map
  some {
    title := offer.title
    price := price
    quantity := atLeastOne quantity
    size_name := size_name
    size_cm := size_cm
    category_name := offer.category_name
  }

/-- The offers-category test of `parse_catalog` (line 146). -/
def isOfferCat (cat : Category) : Bool :=
  hasSub "προσφορές" (pyLower cat.title) || hasSub "offers" (pyLower cat.title) ||
  hasSub "deals" (pyLower cat.title)

/-- The per-offer filter of `parse_catalog` (lines 150-152): keep the
parsed deal only when `deal and deal.price and deal.price > 0`. -/
def keepOffer (store_size_map : List (String × ℕ)) (offer : Offer) :
    Option ParsedDeal :=
  match _parse_offer offer store_size_map with
  | none => none
  | some d =>
    match d.price with
    | some p => if p ≠ 0 ∧ p > 0 then some d else none
    | none => none

/-- Function `parse_catalog` of `src/catalog_parser.py`, applied to an already
decoded document (the JSON file reading is outside the model). -/
def parse_catalog (doc : CatalogDoc) : Except String (List ParsedDeal) :=
  if doc.status ≠ "ok" then
    .error ("Catalog status not ok: " ++ doc.status)
  else
    let store_size_map := discover_store_sizes doc.categories
    .ok (doc.categories.flatMap (fun cat =>
      cat.offers.filterMap (keepOffer store_size_map)
      ++ (if isOfferCat cat then cat.items.filterMap (keepOffer store_size_map)
          else [])))

/-- Lines 294-296 of `catalog_to_deals`: a caller size override for the
resolved size name replaces whatever diameter the chain resolved (only
when the override dict is truthy, i.e. present and nonempty). -/
def applyOverride (size_overrides : Option (List (String × ℕ)))
    (p : ParsedDeal) : Option ℕ :=
  match size_overrides, p.size_name with
  | some ov, some nm =>
    if ov ≠ [] then
      match ov.lookup nm with
      | some v => some v
      | none => p.size_cm
    else p.size_cm
  | _, _ => p.size_cm

/-- The deal-construction step of `catalog_to_deals` (lines 292-315):
apply the caller size override (which replaces whatever the chain
resolved), skip on falsy size or price, then compute the VFM metrics
(whose failure would propagate as an exception). -/
noncomputable def dealOfParsed (rating : Option ℚ)
    (size_overrides : Option (List (String × ℕ))) (p : ParsedDeal) :
    Except String (Option Deal) :=
  let size_cm : Option ℕ := applyOverride size_overrides p
  if !truthyNat size_cm || !truthyRat p.price then .ok none
  else
    match size_cm, p.price with
    | some cm, some pr =>
      match vfm.calculate_vfm p.quantity cm pr rating with
      | .error e => .error e
      | .ok m => .ok (some {
          name := p.title
          quantity := p.quantity
          size_cm := cm
          price := pr
          vfm := m })
    | _, _ => .ok none

/-- The accumulation loop of `catalog_to_deals` over the parsed deals. -/
noncomputable def dealsLoop (rating : Option ℚ)
    (size_overrides : Option (List (String × ℕ))) :
    List ParsedDeal → Except String (List Deal)
  | [] => .ok []
  | p :: ps =>
    match dealOfParsed rating size_overrides p with
    | .error e => .error e
    | .ok none => dealsLoop rating size_overrides ps
    | .ok (some d) =>
      match dealsLoop rating size_overrides ps with
      | .error e => .error e
      | .ok ds => .ok (d :: ds)

/-- Function `catalog_to_deals` of `src/catalog_parser.py` (file-based pipeline),
on a decoded document. -/
noncomputable def catalog_to_deals (doc : CatalogDoc) (rating : Option ℚ)
    (size_overrides : Option (List (String × ℕ))) : Except String (List Deal) :=
  match parse_catalog doc with
  | .error e => .error e
  | .ok parsed => dealsLoop rating size_overrides parsed

/-- The per-offer body of `_parse_catalog_dict` (lines 147-170): parse,
skip on missing/nonpositive price or falsy size, then build the deal. -/
noncomputable def dictDealOfOffer (store_size_map : List (String × ℕ))
    (rating : Option ℚ) (offer : Offer) : Except String (Option Deal) :=
  match _parse_offer offer store_size_map with
  | none => .ok none
  | some parsed =>
    if !truthyRat parsed.price then .ok none
    else
      match parsed.price with
      | none => .ok none
      | some pr =>
        if pr ≤ 0 then .ok none
        else
          if !truthyNat parsed.size_cm then .ok none
          else
            match parsed.size_cm with
            | none => .ok none
            | some cm =>
              match vfm.calculate_vfm parsed.quantity cm pr rating with
              | .error e => .error e
              | .ok m => .ok (some {
                  name := parsed.title
                  quantity := parsed.quantity
                  size_cm := cm
                  price := pr
                  vfm := m })

/-- The offer loop of `_parse_catalog_dict`. -/
noncomputable def dictDealsLoop (store_size_map : List (String × ℕ))
    (rating : Option ℚ) : List Offer → Except String (List Deal)
  | [] => .ok []
  | o :: os =>
    match dictDealOfOffer store_size_map rating o with
    | .error e => .error e
    | .ok none => dictDealsLoop store_size_map rating os
    | .ok (some d) =>
      match dictDealsLoop store_size_map rating os with
      | .error e => .error e
      | .ok ds => .ok (d :: ds)

/-- Concatenating monadic loop over the categories of
`_parse_catalog_dict` (which walks only `category.get("offers", [])`). -/
noncomputable def dictCatsLoop (store_size_map : List (String × ℕ))
    (rating : Option ℚ) : List Category → Except String (List Deal)
  | [] => .ok []
  | c :: cs =>
    match dictDealsLoop store_size_map rating c.offers with
    | .error e => .error e
    | .ok ds =>
      match dictCatsLoop store_size_map rating cs with
      | .error e => .error e
      | .ok ds2 => .ok (ds ++ ds2)

/-- Function `_parse_catalog_dict` of `src/api_client.py` (dict-based pipeline):
a non-"ok" status returns an empty list (no exception); caller overrides
are merged into the discovered store map before resolution
(`store_size_map.update(size_overrides)`, only when the override dict is
truthy). -/
noncomputable def _parse_catalog_dict (doc : CatalogDoc) (rating : Option ℚ)
    (size_overrides : Option (List (String × ℕ))) : Except String (List Deal) :=
  if doc.status ≠ "ok" then .ok []
  else
    let discovered := discover_store_sizes doc.categories
    let store_size_map :=
      match size_overrides with
      | some ov => if ov ≠ [] then ov ++ discovered else discovered
      | none => discovered
    dictCatsLoop store_size_map rating doc.categories

/-- The per-restaurant recovery of `EfoodScraper._scrape_all` (lines
128-144): a failure while processing one catalog is caught and reported
as an empty deal list, and the batch continues. -/
noncomputable def batchDeals (rating : Option ℚ)
    (size_overrides : Option (List (String × ℕ))) (docs : List CatalogDoc) :
    List (List Deal) :=
  docs.map (fun doc =>
    match catalog_to_deals doc rating size_overrides with
    | .error _ => []
    | .ok ds => ds)

/-- Stable descending insertion into a list sorted by `vfm_index`
descending: the new element (earlier in the original input, since the
sort folds from the right) goes before every element with an equal or
smaller key. -/
def insertDealDesc (d : Deal) : List Deal → List Deal
  | [] => [d]
  | e :: es =>
    if e.vfm.vfm_index ≤ d.vfm.vfm_index then d :: e :: es
    else e :: insertDealDesc d es

/-- Model of `deals.sort(key=lambda d: d.vfm.vfm_index, reverse=True)`: the stable
descending sort by `vfm_index` (a stable sort is unique, so insertion
sort is an exact model of Python's stable `list.sort`). -/
def sortDealsDesc (deals : List Deal) : List Deal :=
  deals.foldr insertDealDesc []

/-- The ranker of `EfoodScraper._process_restaurant` /
`_process_restaurant_via_api`: stable sort by `vfm_index` descending,
then `deals[:limit]`. -/
def rankDeals (deals : List Deal) (limit : ℕ) : List Deal :=
  (sortDealsDesc deals).take limit

end efood

/-! ## Helper lemmas -/

/-- Two-decimal rounding moves a real number by at most `1/200`. -/
theorem round2_close (x : ℝ) : |((vfm.round2 x : ℚ) : ℝ) - x| ≤ 1 / 200 := by
  unfold vfm.round2
  push_cast
  have h : |(round (x * 100) : ℝ) - x * 100| ≤ 1 / 2 := by
    rw [abs_sub_comm]; exact abs_sub_round (x * 100)
  have h2 : ((round (x * 100) : ℤ) : ℝ) / 100 - x = ((round (x * 100) : ℤ) - x * 100) / 100 := by
    ring
  rw [h2, abs_div]
  rw [show |(100 : ℝ)| = 100 by norm_num]
  linarith [h]

/-! ## C4 — rating factor -/

/-- C4 (amended): in every call of the VFM calculator, the rating factor
is `1` when the rating is absent **or zero** (Python `rating or 5.0`
treats a zero rating like an absent one), and `r / 5` for every nonzero
rating `r`, with no clamping above 5; the recorded `rating_factor` field
is the two-decimal rounding of that factor. -/
theorem claim_C4 (r : ℚ) (q d : ℕ) (p : ℚ) (hp : 0 < p) :
    vfm.ratingOrFive none / 5 = 1 ∧
    vfm.ratingOrFive (some 0) / 5 = 1 ∧
    vfm.ratingOrFive (some (5 / 2)) / 5 = 1 / 2 ∧
    vfm.ratingOrFive (some 7) / 5 = 7 / 5 ∧
    (r ≠ 0 → vfm.ratingOrFive (some r) / 5 = r / 5) ∧
    ∃ m, vfm.calculate_vfm q d p (some r) = .ok m ∧
      m.rating_factor = vfm.round2 ((vfm.ratingOrFive (some r) / 5 : ℚ) : ℝ) := by
  have hnp : ¬ p ≤ 0 := not_le.mpr hp
  refine ⟨by norm_num [vfm.ratingOrFive], by norm_num [vfm.ratingOrFive],
    by norm_num [vfm.ratingOrFive], by norm_num [vfm.ratingOrFive],
    fun h => by simp [vfm.ratingOrFive, h], ?_⟩
  simp only [vfm.calculate_vfm, if_neg hnp]
  exact ⟨_, rfl, rfl⟩

/-- Witness for C4 at rating `4`, price `10`. -/
theorem claim_C4_witness :
    (0 : ℚ) < 10 ∧
    (vfm.ratingOrFive none / 5 = 1 ∧
     vfm.ratingOrFive (some 0) / 5 = 1 ∧
     vfm.ratingOrFive (some (5 / 2)) / 5 = 1 / 2 ∧
     vfm.ratingOrFive (some 7) / 5 = 7 / 5 ∧
     ((4 : ℚ) ≠ 0 → vfm.ratingOrFive (some 4) / 5 = 4 / 5) ∧
     ∃ m, vfm.calculate_vfm 1 30 10 (some 4) = .ok m ∧
       m.rating_factor = vfm.round2 ((vfm.ratingOrFive (some 4) / 5 : ℚ) : ℝ)) :=
  ⟨by norm_num, claim_C4 4 1 30 10 (by norm_num)⟩

/-- Counterexample for C4 as stated: the claim demands that a supplied
rating of `0.0` yield a rating factor of `0.0`, but the code's
`(rating or 5.0)` evaluates to `5.0` on a zero rating, so the factor is
`1`, not `0`. -/
theorem claim_C4_counterexample :
    (vfm.calculate_vfm 1 30 10 (some 0)).map vfm.VFMMetrics.rating_factor =
      .ok 1 ∧ (1 : ℚ) ≠ 0 / 5 := by
  constructor
  · have hnp : ¬ (10 : ℚ) ≤ 0 := by norm_num
    simp only [vfm.calculate_vfm, if_neg hnp, Except.map]
    have : vfm.round2 ((vfm.ratingOrFive (some 0) / 5 : ℚ) : ℝ) = 1 := by
      norm_num [vfm.ratingOrFive, vfm.round2]
    simpa [vfm.ratingOrFive] using this
  · norm_num

/-! ## C2 — the VFM calculator -/

/-- C2: `calculate_vfm` fails exactly when `price ≤ 0`; for a positive
price it returns metrics whose total area is `quantity * π *
(diameter/2)^2` up to the two-decimal rounding tolerance, whose
`area_per_euro` is the two-decimal rounding of `total_area / price`, and
whose `vfm_index` is the two-decimal rounding of `area_per_euro *
rating_factor`. -/
theorem claim_C2 (q d : ℕ) (p : ℚ) (r : Option ℚ) :
    ((∃ e, vfm.calculate_vfm q d p r = .error e) ↔ p ≤ 0) ∧
    (0 < p → ∃ m, vfm.calculate_vfm q d p r = .ok m ∧
      |((m.total_area_cm2 : ℚ) : ℝ) - (q : ℝ) * (Real.pi * ((d : ℝ) / 2) ^ 2)| ≤ 1 / 200 ∧
      m.area_per_euro =
        vfm.round2 ((q : ℝ) * (Real.pi * ((d : ℝ) / 2) ^ 2) / (p : ℝ)) ∧
      m.vfm_index =
        vfm.round2 ((q : ℝ) * (Real.pi * ((d : ℝ) / 2) ^ 2) / (p : ℝ) *
          ((vfm.ratingOrFive r / 5 : ℚ) : ℝ))) := by
  constructor
  · constructor
    · rintro ⟨e, he⟩
      by_contra hp
      simp [vfm.calculate_vfm, hp] at he
    · intro hp
      exact ⟨"Price must be positive", by simp [vfm.calculate_vfm, hp]⟩
  · intro hp
    have hnp : ¬ p ≤ 0 := not_le.mpr hp
    simp only [vfm.calculate_vfm, if_neg hnp]
    exact ⟨_, rfl, round2_close ((q : ℝ) * (Real.pi * ((d : ℝ) / 2) ^ 2)), rfl, rfl⟩

/-! ## C1 — title diameter priority -/

/-- A title diameter short-circuits the whole chain inside the offer
resolver. -/
theorem sizeChain_title (title candidate : String) (tiers : List efood.Tier)
    (size_name : Option String) (m : List (String × ℕ)) (d : ℕ)
    (h1 : vfm.parse_diameter title = some d) (h2 : d ≠ 0) :
    efood.sizeChain title candidate tiers size_name m = some d := by
  unfold efood.sizeChain
  simp only [h1, if_neg h2]
  cases size_name <;> simp [efood.truthyNat, h2]

/-- C1 (amended): within the offer resolver, an explicit **nonzero**
diameter in the offer title determines the resolved diameter regardless
of tier texts, tier descriptions, the discovered store size map and the
global defaults (step (a) wins and no later step is consulted).  The
file-based `catalog_to_deals`, however, applies a caller-supplied size
override *after* resolution, replacing even a title diameter (see the
counterexample), and a title diameter of `0` is falsy and does not win. -/
theorem claim_C1 (offer : efood.Offer) (m : List (String × ℕ)) (d : ℕ)
    (pd : efood.ParsedDeal) (h1 : vfm.parse_diameter offer.title = some d)
    (h2 : d ≠ 0) (h3 : efood._parse_offer offer m = some pd) :
    pd.size_cm = some d := by
  unfold efood._parse_offer at h3
  cases hpt : efood.pizzaTitle offer.title with
  | false => simp [hpt] at h3
  | true =>
    simp only [hpt, Bool.not_true, Bool.false_eq_true, if_false, Option.some.injEq] at h3
    subst h3
    exact sizeChain_title _ _ _ _ _ d h1 h2

/-- Witness for C1: a title `40cm` beats a tier text `30cm` and a store
map entry, inside the resolver. -/
theorem claim_C1_witness :
    vfm.parse_diameter "Πίτσα 40cm" = some 40 ∧ (40 : ℕ) ≠ 0 ∧
    efood._parse_offer
      ⟨"Πίτσα 40cm", "", "", "", some 10, none, [⟨1, [⟨"", "", "", "Πίτσες (30cm)"⟩]⟩]⟩
      [("κανονική", 28)] =
      some ⟨"Πίτσα 40cm", some 10, 1, none, some 40, ""⟩ ∧
    (⟨"Πίτσα 40cm", some 10, 1, none, some 40, ""⟩ : efood.ParsedDeal).size_cm = some 40 := by
  refine ⟨by decide, by decide, by decide, ?_⟩
  exact claim_C1
    ⟨"Πίτσα 40cm", "", "", "", some 10, none, [⟨1, [⟨"", "", "", "Πίτσες (30cm)"⟩]⟩]⟩
    [("κανονική", 28)] 40 ⟨"Πίτσα 40cm", some 10, 1, none, some 40, ""⟩
    (by decide) (by decide) (by decide)

/-- Counterexample for C1 as stated: the claim promises the title
diameter wins "regardless of any caller-supplied size override", but the
file-based pipeline applies overrides after resolution: an offer titled
`Πίτσα 40cm γίγας` with override `γίγας → 33` produces a deal of diameter
33, not 40 (the dict-based pipeline, merging overrides into the store
map, keeps 40). -/
theorem claim_C1_counterexample :
    (efood.catalog_to_deals
        ⟨"ok", [⟨"", "", [], [⟨"Πίτσα 40cm γίγας", "", "", "", some 10, none, []⟩]⟩]⟩
        none (some [("γίγας", 33)])).map (fun l => l.map efood.Deal.size_cm) =
      .ok [33] ∧
    vfm.parse_diameter "Πίτσα 40cm γίγας" = some 40 ∧ (33 : ℕ) ≠ 40 ∧
    (efood._parse_catalog_dict
        ⟨"ok", [⟨"", "", [], [⟨"Πίτσα 40cm γίγας", "", "", "", some 10, none, []⟩]⟩]⟩
        none (some [("γίγας", 33)])).map (fun l => l.map efood.Deal.size_cm) =
      .ok [40] :=
  ⟨rfl, by decide, by decide, rfl⟩

/-! ## C5 — store size discoverer -/

/-- A binding present in an association list survives appending. -/
theorem lookup_append_of_some {β : Type} (k : String) (v : β) :
    ∀ (m l : List (String × β)), m.lookup k = some v → (m ++ l).lookup k = some v := by
  intro m l h
  induction m with
  | nil => simp [List.lookup] at h
  | cons a m ih =>
    rw [List.cons_append]
    rw [List.lookup] at h ⊢
    cases hk : (k == a.1) with
    | true => simpa [hk] using h
    | false =>
      rw [hk] at h
      simpa [hk] using ih h

/-- One discoverer step never overwrites an existing binding. -/
theorem extract_size_mapping_preserves (k : String) (v : ℕ)
    (m : List (String × ℕ)) (t : String) (h : m.lookup k = some v) :
    (efood.extract_size_mapping m t).lookup k = some v := by
  unfold efood.extract_size_mapping
  cases vfm.parse_diameter t with
  | none => exact h
  | some cm =>
    by_cases hcm : cm = 0
    · simp [hcm, h]
    · simp only [if_neg hcm]
      cases efood.size_keywords.find? (fun kv => hasSub kv.1 (pyLower t)) with
      | none => exact h
      | some kv =>
        by_cases hm : (m.lookup kv.2).isSome
        · simp [hm, h]
        · simp only [hm, if_false, Bool.false_eq_true]
          exact lookup_append_of_some k v m _ h

/-- The discoverer fold never overwrites an existing binding. -/
theorem discover_fold_preserves (k : String) (v : ℕ) :
    ∀ (frags : List String) (m : List (String × ℕ)), m.lookup k = some v →
      (frags.foldl efood.extract_size_mapping m).lookup k = some v := by
  intro frags
  induction frags with
  | nil => intro m h; exact h
  | cons t ts ih =>
    intro m h
    exact ih _ (extract_size_mapping_preserves k v m t h)

/-- C5 (amended): the discoverer applies the fixed keyword table
`ατομικ→μικρή, κανονικ→κανονική, μεσαι→μεσαία, μεγαλ→μεγάλη,
οικογενειακ→οικογενειακή, γιγας/γίγας→γίγας, jumbo/τετραγων→jumbo`
jointly with the diameter extractor on each fragment; this table is *not*
a superset of the §4.1 keyword set (it has no `μικρ` pattern and only the
unaccented `μεγαλ` — see the counterexample).  A keyword already present
in the map is never overwritten: entries discovered from earlier
categories survive any later categories (first-seen wins in document scan
order).  The fragment `Πίτσες οικογενειακές (30cm)` yields
`οικογενειακή → 30`. -/
theorem claim_C5 (cats more : List efood.Category) (k : String) (v : ℕ)
    (h : (efood.discover_store_sizes cats).lookup k = some v) :
    (efood.discover_store_sizes (cats ++ more)).lookup k = some v ∧
    efood.discover_store_sizes
      [{ name := "Πίτσες οικογενειακές (30cm)", title := "", items := [], offers := [] }] =
      [("οικογενειακή", 30)] := by
  constructor
  · unfold efood.discover_store_sizes at h ⊢
    rw [List.flatMap_append, List.foldl_append]
    exact discover_fold_preserves k v _ _ h
  · decide

/-- Witness for C5: an earlier-category binding `οικογενειακή → 30`
survives a later category that maps the same keyword to 40. -/
theorem claim_C5_witness :
    (efood.discover_store_sizes
      [{ name := "Πίτσες οικογενειακές (30cm)", title := "", items := [], offers := [] }]).lookup
      "οικογενειακή" = some 30 ∧
    ((efood.discover_store_sizes
      ([{ name := "Πίτσες οικογενειακές (30cm)", title := "", items := [], offers := [] }] ++
       [{ name := "Πίτσες οικογενειακές (40cm)", title := "", items := [], offers := [] }])).lookup
      "οικογενειακή" = some 30 ∧
     efood.discover_store_sizes
      [{ name := "Πίτσες οικογενειακές (30cm)", title := "", items := [], offers := [] }] =
      [("οικογενειακή", 30)]) :=
  ⟨by decide, claim_C5 _ _ "οικογενειακή" 30 (by decide)⟩

/-- Counterexample for C5 as stated: the claim asserts the discoverer's
table is a superset of the §4.1 keywords, in particular recognizing
`μικρ*`; but a category named `Πίτσα μικρή (25cm)` — which §4.1 resolves
to `μικρή` and whose diameter extracts as 25 — is recorded nowhere: the
resulting size map is empty (the table has no `μικρ` pattern; likewise
the accented `μεγάλ*` of §4.1 is missed, while unaccented `μεγαλ` works). -/
theorem claim_C5_counterexample :
    efood.discover_store_sizes
      [{ name := "Πίτσα μικρή (25cm)", title := "", items := [], offers := [] }] = [] ∧
    efood.extract_size_from_text "Πίτσα μικρή (25cm)" = some "μικρή" ∧
    vfm.parse_diameter "Πίτσα μικρή (25cm)" = some 25 ∧
    efood.discover_store_sizes
      [{ name := "Πίτσες μεγάλες (36cm)", title := "", items := [], offers := [] }] = [] ∧
    efood.extract_size_from_text "Πίτσες μεγάλες (36cm)" = some "μεγάλη" := by
  refine ⟨by decide, by decide, by decide, by decide, by decide⟩

/-! ## C8 — per-tier scan -/

/-- Characterization of the per-tier fold from an arbitrary starting
state: quantity accumulates all pizza tiers, the candidate text is the
**last** pizza tier's category-name, and the size name is the first
successful keyword extraction over the pizza tiers' category-names. -/
theorem tierScan_foldl (tiers : List efood.Tier) :
    ∀ acc : efood.TierAcc,
      (tiers.foldl efood.tierStep acc).qty =
        acc.qty + ((tiers.filterMap fun t =>
          match t.items with
          | [] => none
          | i :: _ =>
            if efood.pizzaTierCat i.category_name then some (t.quantity, i.category_name)
            else none).map Prod.fst).sum ∧
      (tiers.foldl efood.tierStep acc).candidate =
        (((tiers.filterMap fun t =>
          match t.items with
          | [] => none
          | i :: _ =>
            if efood.pizzaTierCat i.category_name then some (t.quantity, i.category_name)
            else none).map Prod.snd).getLast?).getD acc.candidate ∧
      (tiers.foldl efood.tierStep acc).size_name =
        (match acc.size_name with
         | some s => some s
         | none => ((tiers.filterMap fun t =>
            match t.items with
            | [] => none
            | i :: _ =>
              if efood.pizzaTierCat i.category_name then some (t.quantity, i.category_name)
              else none).map Prod.snd).findSome? efood.extract_size_from_text) := by
  induction tiers with
  | nil =>
    intro acc
    refine ⟨by simp, by simp, ?_⟩
    cases h : acc.size_name <;> simp [h]
  | cons t ts ih =>
    intro acc
    cases hit : t.items with
    | nil =>
      have hstep : efood.tierStep acc t = acc := by unfold efood.tierStep; rw [hit]
      simp only [List.foldl_cons, hstep, List.filterMap_cons, hit]
      exact ih acc
    | cons i rest =>
      by_cases hp : efood.pizzaTierCat i.category_name
      · have hstep : efood.tierStep acc t =
            { qty := acc.qty + t.quantity, candidate := i.category_name,
              size_name :=
                match acc.size_name with
                | some s => some s
                | none => efood.extract_size_from_text i.category_name } := by
          unfold efood.tierStep; rw [hit]; simp [hp]
        simp only [List.foldl_cons, hstep, List.filterMap_cons, hit, hp, if_true]
        obtain ⟨ihq, ihc, ihs⟩ := ih
          { qty := acc.qty + t.quantity, candidate := i.category_name,
            size_name :=
              match acc.size_name with
              | some s => some s
              | none => efood.extract_size_from_text i.category_name }
        refine ⟨by rw [ihq]; simp [Nat.add_assoc], ?_, ?_⟩
        · rw [ihc]
          simp only [List.map_cons]
          cases hl : ((ts.filterMap fun t =>
            match t.items with
            | [] => none
            | i :: _ =>
              if efood.pizzaTierCat i.category_name then some (t.quantity, i.category_name)
              else none).map Prod.snd) with
          | nil => simp
          | cons b bs =>
            rw [List.getLast?_cons_cons]
            obtain ⟨y, hy⟩ : ∃ y, (b :: bs).getLast? = some y :=
              Option.isSome_iff_exists.mp (List.getLast?_isSome.mpr (by simp))
            rw [hy]
            rfl
        · rw [ihs]
          cases hacc : acc.size_name with
          | some s => simp
          | none =>
            simp only [List.map_cons, List.findSome?_cons]
            cases efood.extract_size_from_text i.category_name <;> simp
      · have hstep : efood.tierStep acc t = acc := by
          unfold efood.tierStep; rw [hit]; simp [hp]
        simp only [List.foldl_cons, hstep, List.filterMap_cons, hit, hp, if_false]
        exact ih acc

/-- C8 (amended): in the per-tier scan, quantity accumulates the repeat
count of every pizza tier; the candidate size text remembered for
diameter step (b) is the **last** pizza tier's category-name (each pizza
tier overwrites it); and the size keyword extraction is attempted on
every pizza tier's category-name in order until one succeeds (not only on
the first pizza tier). -/
theorem claim_C8 (tiers : List efood.Tier) :
    (efood.tierScan tiers).qty =
      ((tiers.filterMap fun t =>
        match t.items with
        | [] => none
        | i :: _ =>
          if efood.pizzaTierCat i.category_name then some (t.quantity, i.category_name)
          else none).map Prod.fst).sum ∧
    (efood.tierScan tiers).candidate =
      (((tiers.filterMap fun t =>
        match t.items with
        | [] => none
        | i :: _ =>
          if efood.pizzaTierCat i.category_name then some (t.quantity, i.category_name)
          else none).map Prod.snd).getLast?).getD "" ∧
    (efood.tierScan tiers).size_name =
      ((tiers.filterMap fun t =>
        match t.items with
        | [] => none
        | i :: _ =>
          if efood.pizzaTierCat i.category_name then some (t.quantity, i.category_name)
          else none).map Prod.snd).findSome? efood.extract_size_from_text := by
  have h := tierScan_foldl tiers { qty := 0, candidate := "", size_name := none }
  exact ⟨by simpa using h.1, h.2.1, h.2.2⟩

/-- Counterexample for C8 as stated: with two pizza tiers —
`Πίτσες σπέσιαλ` (no keyword, no diameter) then `Πίτσες γίγας (40cm)` —
the remembered candidate text is the second tier's category-name (not the
first's), the size name `γίγας` is contributed by the second tier, and
step (b) of the diameter chain resolves 40 from that later tier's text
even though the first pizza tier's category-name has no diameter. -/
theorem claim_C8_counterexample :
    efood.tierScan
      [⟨1, [⟨"", "", "", "Πίτσες σπέσιαλ"⟩]⟩, ⟨1, [⟨"", "", "", "Πίτσες γίγας (40cm)"⟩]⟩] =
      ⟨2, "Πίτσες γίγας (40cm)", some "γίγας"⟩ ∧
    ("Πίτσες γίγας (40cm)" : String) ≠ "Πίτσες σπέσιαλ" ∧
    efood.extract_size_from_text "Πίτσες σπέσιαλ" = none ∧
    vfm.parse_diameter "Πίτσες σπέσιαλ" = none ∧
    (efood._parse_offer
      ⟨"2 Πίτσες της ημέρας", "", "", "", some 10, none,
        [⟨1, [⟨"", "", "", "Πίτσες σπέσιαλ"⟩]⟩,
         ⟨1, [⟨"", "", "", "Πίτσες γίγας (40cm)"⟩]⟩]⟩
      []).map efood.ParsedDeal.size_cm = some (some 40) := by
  refine ⟨by decide, by decide, by decide, by decide, by decide⟩

/-! ## C3 — pipeline output invariant -/

/-- The Python conditional `n if n > 0 else 1` is at least 1. -/
theorem one_le_atLeastOne (n : ℕ) : 1 ≤ efood.atLeastOne n := by
  unfold efood.atLeastOne
  split <;> omega

/-- The resolver's final quantity is at least 1. -/
theorem parse_offer_quantity (o : efood.Offer) (m : List (String × ℕ))
    (pd : efood.ParsedDeal) (h : efood._parse_offer o m = some pd) :
    1 ≤ pd.quantity := by
  unfold efood._parse_offer at h
  cases hpt : efood.pizzaTitle o.title with
  | false => simp [hpt] at h
  | true =>
    simp only [hpt, Bool.not_true, Bool.false_eq_true, if_false, Option.some.injEq] at h
    subst h
    exact one_le_atLeastOne _

/-- A deal kept by `parse_catalog`'s offer filter has a positive price. -/
theorem keepOffer_sound (m : List (String × ℕ)) (o : efood.Offer)
    (pd : efood.ParsedDeal) (h : efood.keepOffer m o = some pd) :
    1 ≤ pd.quantity ∧ ∃ p, pd.price = some p ∧ 0 < p := by
  unfold efood.keepOffer at h
  cases ho : efood._parse_offer o m with
  | none => rw [ho] at h; exact absurd h (by simp)
  | some d =>
    rw [ho] at h
    dsimp only at h
    cases hp : d.price with
    | none => rw [hp] at h; exact absurd h (by simp)
    | some p =>
      rw [hp] at h
      dsimp only at h
      by_cases hpp : p ≠ 0 ∧ p > 0
      · rw [if_pos hpp] at h
        cases h
        exact ⟨parse_offer_quantity o m _ ho, p, hp, hpp.2⟩
      · rw [if_neg hpp] at h
        exact absurd h (by simp)

/-- Every parsed deal of the file pipeline has quantity ≥ 1 and a
positive price. -/
theorem parse_catalog_sound (doc : efood.CatalogDoc) (l : List efood.ParsedDeal)
    (pd : efood.ParsedDeal) (h : efood.parse_catalog doc = .ok l) (hm : pd ∈ l) :
    1 ≤ pd.quantity ∧ ∃ p, pd.price = some p ∧ 0 < p := by
  unfold efood.parse_catalog at h
  by_cases hs : doc.status ≠ "ok"
  · rw [if_pos hs] at h; exact absurd h (by simp)
  · rw [if_neg hs] at h
    cases h
    rw [List.mem_flatMap] at hm
    obtain ⟨cat, _, hmem⟩ := hm
    rw [List.mem_append] at hmem
    rcases hmem with hmem | hmem
    · obtain ⟨o, _, ho⟩ := List.mem_filterMap.mp hmem
      exact keepOffer_sound _ o pd ho
    · by_cases hoc : efood.isOfferCat cat
      · rw [if_pos hoc] at hmem
        obtain ⟨o, _, ho⟩ := List.mem_filterMap.mp hmem
        exact keepOffer_sound _ o pd ho
      · rw [if_neg hoc] at hmem
        exact absurd hmem (by simp)

/-- A successful VFM computation certifies the price was positive. -/
theorem calculate_vfm_pos (q d : ℕ) (p : ℚ) (r : Option ℚ) (m : vfm.VFMMetrics)
    (h : vfm.calculate_vfm q d p r = .ok m) : 0 < p := by
  by_contra hp
  rw [not_lt] at hp
  simp [vfm.calculate_vfm, hp] at h

/-- A deal built by the file pipeline's conversion step has positive
price, nonzero diameter, and the parsed quantity. -/
theorem dealOfParsed_sound (r : Option ℚ) (ov : Option (List (String × ℕ)))
    (p : efood.ParsedDeal) (d : efood.Deal)
    (h : efood.dealOfParsed r ov p = .ok (some d)) :
    0 < d.price ∧ 0 < d.size_cm ∧ d.quantity = p.quantity := by
  unfold efood.dealOfParsed at h
  dsimp only at h
  generalize hso : efood.applyOverride ov p = sz at h
  by_cases hg : (!efood.truthyNat sz || !efood.truthyRat p.price) = true
  · rw [if_pos hg] at h; exact absurd h (by simp)
  · rw [if_neg hg] at h
    have hg2 : (!efood.truthyNat sz || !efood.truthyRat p.price) = false :=
      Bool.not_eq_true _ ▸ hg
    obtain ⟨hn, _⟩ := Bool.or_eq_false_iff.mp hg2
    rw [Bool.not_eq_false'] at hn
    cases hsz : sz with
    | none => rw [hsz] at hn; exact absurd hn (by simp [efood.truthyNat])
    | some cm =>
      rw [hsz] at hn h
      cases hp : p.price with
      | none => rw [hp] at h; exact absurd h (by simp)
      | some pr =>
        rw [hp] at h
        dsimp only at h
        cases hv : vfm.calculate_vfm p.quantity cm pr r with
        | error e => rw [hv] at h; exact absurd h (by simp)
        | ok m =>
          rw [hv] at h
          dsimp only at h
          cases h
          refine ⟨calculate_vfm_pos _ _ _ _ _ hv, ?_, rfl⟩
          simp only [efood.truthyNat, decide_eq_true_eq] at hn
          show 0 < cm
          omega

/-- Every deal emitted by the file pipeline's loop comes from one parsed
deal via `dealOfParsed`. -/
theorem dealsLoop_mem (r : Option ℚ) (ov : Option (List (String × ℕ))) :
    ∀ (ps : List efood.ParsedDeal) (ds : List efood.Deal),
      efood.dealsLoop r ov ps = .ok ds → ∀ d ∈ ds,
        ∃ p ∈ ps, efood.dealOfParsed r ov p = .ok (some d) := by
  intro ps
  induction ps with
  | nil =>
    intro ds h d hd
    unfold efood.dealsLoop at h
    cases h
    exact absurd hd (by simp)
  | cons p ps ih =>
    intro ds h d hd
    unfold efood.dealsLoop at h
    split at h
    · exact absurd h (by simp)
    · obtain ⟨q, hq, hq2⟩ := ih ds h d hd
      exact ⟨q, List.mem_cons_of_mem _ hq, hq2⟩
    · rename_i d0 hd0
      split at h
      · exact absurd h (by simp)
      · rename_i ds' hds'
        cases h
        rcases List.mem_cons.mp hd with hd | hd
        · exact ⟨p, List.mem_cons_self _ _, by rw [hd0, hd]⟩
        · obtain ⟨q, hq, hq2⟩ := ih ds' hds' d hd
          exact ⟨q, List.mem_cons_of_mem _ hq, hq2⟩

/-- Every deal emitted by the dict pipeline's per-offer body has positive
price, nonzero diameter, and quantity ≥ 1. -/
theorem dictDealOfOffer_sound (m : List (String × ℕ)) (r : Option ℚ)
    (o : efood.Offer) (d : efood.Deal)
    (h : efood.dictDealOfOffer m r o = .ok (some d)) :
    0 < d.price ∧ 0 < d.size_cm ∧ 1 ≤ d.quantity := by
  unfold efood.dictDealOfOffer at h
  cases hpo : efood._parse_offer o m with
  | none => rw [hpo] at h; exact absurd h (by simp)
  | some parsed =>
    rw [hpo] at h
    dsimp only at h
    by_cases h1 : (!efood.truthyRat parsed.price) = true
    · rw [if_pos h1] at h; exact absurd h (by simp)
    · rw [if_neg h1] at h
      cases hp : parsed.price with
      | none => rw [hp] at h; exact absurd h (by simp)
      | some pr =>
        rw [hp] at h
        dsimp only at h
        by_cases h2 : pr ≤ 0
        · rw [if_pos h2] at h; exact absurd h (by simp)
        · rw [if_neg h2] at h
          by_cases h3 : (!efood.truthyNat parsed.size_cm) = true
          · rw [if_pos h3] at h; exact absurd h (by simp)
          · rw [if_neg h3] at h
            cases hcm : parsed.size_cm with
            | none => rw [hcm] at h; exact absurd h (by simp)
            | some cm =>
              rw [hcm] at h
              dsimp only at h
              cases hv : vfm.calculate_vfm parsed.quantity cm pr r with
              | error e => rw [hv] at h; exact absurd h (by simp)
              | ok m2 =>
                rw [hv] at h
                dsimp only at h
                cases h
                refine ⟨not_le.mp h2, ?_, parse_offer_quantity o m parsed hpo⟩
                rw [Bool.not_eq_true', Bool.not_eq_false, hcm] at h3
                simp only [efood.truthyNat, decide_eq_true_eq] at h3
                show 0 < cm
                omega

/-- Every deal emitted by the dict pipeline's offer loop satisfies the
invariant. -/
theorem dictDealsLoop_sound (m : List (String × ℕ)) (r : Option ℚ) :
    ∀ (os : List efood.Offer) (ds : List efood.Deal),
      efood.dictDealsLoop m r os = .ok ds → ∀ d ∈ ds,
        0 < d.price ∧ 0 < d.size_cm ∧ 1 ≤ d.quantity := by
  intro os
  induction os with
  | nil =>
    intro ds h d hd
    unfold efood.dictDealsLoop at h
    cases h
    exact absurd hd (by simp)
  | cons o os ih =>
    intro ds h d hd
    unfold efood.dictDealsLoop at h
    split at h
    · exact absurd h (by simp)
    · exact ih ds h d hd
    · rename_i d0 hd0
      split at h
      · exact absurd h (by simp)
      · rename_i ds' hds'
        cases h
        rcases List.mem_cons.mp hd with hd | hd
        · rw [hd]; exact dictDealOfOffer_sound m r o d0 hd0
        · exact ih ds' hds' d hd

/-- Every deal emitted by the dict pipeline's category loop satisfies the
invariant. -/
theorem dictCatsLoop_sound (m : List (String × ℕ)) (r : Option ℚ) :
    ∀ (cs : List efood.Category) (ds : List efood.Deal),
      efood.dictCatsLoop m r cs = .ok ds → ∀ d ∈ ds,
        0 < d.price ∧ 0 < d.size_cm ∧ 1 ≤ d.quantity := by
  intro cs
  induction cs with
  | nil =>
    intro ds h d hd
    unfold efood.dictCatsLoop at h
    cases h
    exact absurd hd (by simp)
  | cons c cs ih =>
    intro ds h d hd
    unfold efood.dictCatsLoop at h
    split at h
    · exact absurd h (by simp)
    · rename_i ds1 hds1
      split at h
      · exact absurd h (by simp)
      · rename_i ds2 hds2
        cases h
        rcases List.mem_append.mp hd with hd | hd
        · exact dictDealsLoop_sound m r c.offers ds1 hds1 d hd
        · exact ih ds2 hds2 d hd

/-- C3: every deal produced by either pipeline has a positive price, a
nonzero resolved diameter, and quantity at least 1; offers with an
unresolved (falsy) price or diameter are skipped before a `Deal` is ever
constructed. -/
theorem claim_C3 (doc : efood.CatalogDoc) (r : Option ℚ)
    (ov : Option (List (String × ℕ))) (deals ddeals : List efood.Deal)
    (h1 : efood.catalog_to_deals doc r ov = .ok deals)
    (h2 : efood._parse_catalog_dict doc r ov = .ok ddeals) :
    (∀ d ∈ deals, 0 < d.price ∧ 0 < d.size_cm ∧ 1 ≤ d.quantity) ∧
    (∀ d ∈ ddeals, 0 < d.price ∧ 0 < d.size_cm ∧ 1 ≤ d.quantity) := by
  constructor
  · intro d hd
    unfold efood.catalog_to_deals at h1
    cases hpc : efood.parse_catalog doc with
    | error e => rw [hpc] at h1; exact absurd h1 (by simp)
    | ok parsed =>
      rw [hpc] at h1
      obtain ⟨p, hp, hp2⟩ := dealsLoop_mem r ov parsed deals h1 d hd
      obtain ⟨hpos, hsz, hq⟩ := dealOfParsed_sound r ov p d hp2
      obtain ⟨hq1, _⟩ := parse_catalog_sound doc parsed p hpc hp
      exact ⟨hpos, hsz, by omega⟩
  · intro d hd
    unfold efood._parse_catalog_dict at h2
    by_cases hs : doc.status ≠ "ok"
    · rw [if_pos hs] at h2
      cases h2
      exact absurd hd (by simp)
    · rw [if_neg hs] at h2
      exact dictCatsLoop_sound _ r doc.categories ddeals h2 d hd

/-- Witness for C3 on a one-offer catalog that produces one deal in each
pipeline. -/
theorem claim_C3_witness :
    ∃ deals ddeals,
      efood.catalog_to_deals
        ⟨"ok", [⟨"", "", [], [⟨"2 Πίτσες γίγας 40cm", "", "", "", some 18, none, []⟩]⟩]⟩
        none none = .ok deals ∧
      efood._parse_catalog_dict
        ⟨"ok", [⟨"", "", [], [⟨"2 Πίτσες γίγας 40cm", "", "", "", some 18, none, []⟩]⟩]⟩
        none none = .ok ddeals ∧
      deals.length = 1 ∧ ddeals.length = 1 ∧
      (∀ d ∈ deals, 0 < d.price ∧ 0 < d.size_cm ∧ 1 ≤ d.quantity) ∧
      (∀ d ∈ ddeals, 0 < d.price ∧ 0 < d.size_cm ∧ 1 ≤ d.quantity) := by
  refine ⟨_, _, rfl, rfl, rfl, rfl, ?_⟩
  exact claim_C3
    ⟨"ok", [⟨"", "", [], [⟨"2 Πίτσες γίγας 40cm", "", "", "", some 18, none, []⟩]⟩]⟩
    none none _ _ rfl rfl

/-! ## C6 — catalog-format failure -/

/-- C6: a catalog whose status is not "ok" makes the file pipeline fail
with the catalog-format error (an `Except.error`, not an unmodelled
crash), makes the dict pipeline return an empty deal list, and the batch
loop (which converts a per-restaurant failure into an empty deal list)
processes everything else unaffected. -/
theorem claim_C6 (doc : efood.CatalogDoc) (r : Option ℚ)
    (ov : Option (List (String × ℕ))) (h : doc.status ≠ "ok") :
    efood.catalog_to_deals doc r ov =
      .error ("Catalog status not ok: " ++ doc.status) ∧
    efood._parse_catalog_dict doc r ov = .ok [] ∧
    ∀ pre post, efood.batchDeals r ov (pre ++ doc :: post) =
      efood.batchDeals r ov pre ++ [] :: efood.batchDeals r ov post := by
  have hpc : efood.parse_catalog doc =
      .error ("Catalog status not ok: " ++ doc.status) := by
    unfold efood.parse_catalog
    rw [if_pos h]
  refine ⟨?_, ?_, ?_⟩
  · unfold efood.catalog_to_deals
    rw [hpc]
  · unfold efood._parse_catalog_dict
    rw [if_pos h]
  · intro pre post
    unfold efood.batchDeals
    rw [List.map_append, List.map_cons]
    unfold efood.catalog_to_deals
    rw [hpc]

/-- Witness for C6: a failed catalog between two good ones. -/
theorem claim_C6_witness :
    (("error" : String) ≠ "ok") ∧
    (efood.catalog_to_deals ⟨"error", []⟩ none none =
      .error ("Catalog status not ok: " ++ "error") ∧
     efood._parse_catalog_dict ⟨"error", []⟩ none none = .ok [] ∧
     ∀ pre post, efood.batchDeals none none (pre ++ (⟨"error", []⟩ : efood.CatalogDoc) :: post) =
       efood.batchDeals none none pre ++ [] :: efood.batchDeals none none post) :=
  ⟨by decide, claim_C6 ⟨"error", []⟩ none none (by decide)⟩

/-! ## C9 — which records the resolver is run on -/

/-- The file pipeline's loop splits over list concatenation. -/
theorem dealsLoop_append (r : Option ℚ) (ov : Option (List (String × ℕ))) :
    ∀ l1 l2 : List efood.ParsedDeal,
      efood.dealsLoop r ov (l1 ++ l2) =
        match efood.dealsLoop r ov l1 with
        | .error e => .error e
        | .ok ds1 =>
          match efood.dealsLoop r ov l2 with
          | .error e => .error e
          | .ok ds2 => .ok (ds1 ++ ds2) := by
  intro l1 l2
  induction l1 with
  | nil =>
    show efood.dealsLoop r ov l2 = _
    cases efood.dealsLoop r ov l2 <;> rfl
  | cons p l1 ih =>
    rw [List.cons_append]
    simp only [efood.dealsLoop]
    cases hdp : efood.dealOfParsed r ov p with
    | error e => rfl
    | ok od =>
      cases od with
      | none => dsimp only; rw [ih]
      | some d =>
        dsimp only
        rw [ih]
        cases hl1 : efood.dealsLoop r ov l1 with
        | error e => rfl
        | ok ds1 =>
          dsimp only
          cases hl2 : efood.dealsLoop r ov l2 with
          | error e => rfl
          | ok ds2 => dsimp only; rw [List.cons_append]

/-- With no caller overrides, the dict pipeline's per-offer body is the
file pipeline's filter followed by its conversion step. -/
theorem dictDealOfOffer_eq_keepOffer (m : List (String × ℕ)) (r : Option ℚ)
    (o : efood.Offer) :
    efood.dictDealOfOffer m r o =
      match efood.keepOffer m o with
      | none => .ok none
      | some pd => efood.dealOfParsed r none pd := by
  unfold efood.dictDealOfOffer efood.keepOffer
  cases hpo : efood._parse_offer o m with
  | none => rfl
  | some parsed =>
    dsimp only
    cases hp : parsed.price with
    | none => simp [efood.truthyRat]
    | some pr =>
      dsimp only
      by_cases hz : pr = 0
      · subst hz
        simp [efood.truthyRat]
      · have ht : efood.truthyRat (some pr) = true := by
          simp [efood.truthyRat, hz]
        rw [ht]
        by_cases hle : pr ≤ 0
        · have hnot : ¬(pr ≠ 0 ∧ pr > 0) := by
            rintro ⟨_, hgt⟩; exact absurd hle (not_le.mpr hgt)
          rw [if_pos hle, if_neg hnot]
          rfl
        · have hgt : pr > 0 := not_le.mp hle
          have hpos : pr ≠ 0 ∧ pr > 0 := ⟨hz, hgt⟩
          rw [if_neg hle, if_pos hpos]
          dsimp only
          unfold efood.dealOfParsed
          dsimp only
          have hov : efood.applyOverride none parsed = parsed.size_cm := by
            unfold efood.applyOverride
            cases parsed.size_name <;> rfl
          rw [hov, hp, ht]
          cases hcm : parsed.size_cm with
          | none => simp [efood.truthyNat]
          | some cm =>
            by_cases hc0 : cm = 0
            · subst hc0
              simp [efood.truthyNat]
            · have htn : efood.truthyNat (some cm) = true := by
                simp [efood.truthyNat, hc0]
              rw [htn]
              dsimp only
              cases vfm.calculate_vfm parsed.quantity cm pr r <;> rfl

/-- With no caller overrides, the dict pipeline's offer loop equals the
file pipeline's loop over the kept offers. -/
theorem dictDealsLoop_eq (m : List (String × ℕ)) (r : Option ℚ) :
    ∀ os : List efood.Offer,
      efood.dictDealsLoop m r os =
        efood.dealsLoop r none (os.filterMap (efood.keepOffer m)) := by
  intro os
  induction os with
  | nil => rfl
  | cons o os ih =>
    unfold efood.dictDealsLoop
    rw [dictDealOfOffer_eq_keepOffer m r o, List.filterMap_cons]
    cases hk : efood.keepOffer m o with
    | none => exact ih
    | some pd =>
      dsimp only
      show _ = efood.dealsLoop r none (pd :: _)
      unfold efood.dealsLoop
      cases efood.dealOfParsed r none pd with
      | error e => rfl
      | ok od =>
        cases od with
        | none => exact ih
        | some d => rw [ih]

/-- With no caller overrides and no offers-category items, the two
pipeline loops coincide category by category. -/
theorem catsLoop_eq (m : List (String × ℕ)) (r : Option ℚ) :
    ∀ cats : List efood.Category,
      (∀ c ∈ cats, efood.isOfferCat c = false ∨ c.items = []) →
      efood.dealsLoop r none (cats.flatMap (fun cat =>
        cat.offers.filterMap (efood.keepOffer m)
        ++ (if efood.isOfferCat cat then cat.items.filterMap (efood.keepOffer m)
            else []))) =
      efood.dictCatsLoop m r cats := by
  intro cats
  induction cats with
  | nil => intro _; rfl
  | cons c cats ih =>
    intro hyp
    have hc : (if efood.isOfferCat c then c.items.filterMap (efood.keepOffer m)
        else []) = [] := by
      rcases hyp c (List.mem_cons_self _ _) with h | h
      · rw [h]; rfl
      · rw [h]
        simp
    rw [List.flatMap_cons, hc, List.append_nil, dealsLoop_append,
      ih (fun x hx => hyp x (List.mem_cons_of_mem _ hx))]
    simp only [efood.dictCatsLoop]
    rw [dictDealsLoop_eq m r c.offers]

/-- C9 (amended): both pipelines run the offer resolver, with the same
discovered store map, on every offer of every category; the file-based
pipeline additionally treats the plain items of offers-categories as
offers (same resolver, same price filter and skips), while the dict-based
pipeline never processes plain items.  Hence on catalogs in which no
offers-category carries plain items (and with no caller overrides, whose
handling also differs — see C1) the two pipelines produce identical deal
lists. -/
theorem claim_C9 (doc : efood.CatalogDoc) (r : Option ℚ)
    (h1 : doc.status = "ok")
    (h2 : ∀ c ∈ doc.categories, efood.isOfferCat c = false ∨ c.items = []) :
    efood.catalog_to_deals doc r none = efood._parse_catalog_dict doc r none := by
  have hs : ¬ doc.status ≠ "ok" := by simp [h1]
  unfold efood.catalog_to_deals efood.parse_catalog
  rw [if_neg hs]
  unfold efood._parse_catalog_dict
  rw [if_neg hs]
  exact catsLoop_eq (efood.discover_store_sizes doc.categories) r doc.categories h2

/-- Witness for C9 on a one-category, one-offer catalog. -/
theorem claim_C9_witness :
    (("ok" : String) = "ok") ∧
    (∀ c ∈ ([⟨"Πίτσες", "Πίτσες", [],
        [⟨"2 Πίτσες γίγας 40cm", "", "", "", some 18, none, []⟩]⟩] :
          List efood.Category),
      efood.isOfferCat c = false ∨ c.items = []) ∧
    efood.catalog_to_deals
      ⟨"ok", [⟨"Πίτσες", "Πίτσες", [],
        [⟨"2 Πίτσες γίγας 40cm", "", "", "", some 18, none, []⟩]⟩]⟩ none none =
    efood._parse_catalog_dict
      ⟨"ok", [⟨"Πίτσες", "Πίτσες", [],
        [⟨"2 Πίτσες γίγας 40cm", "", "", "", some 18, none, []⟩]⟩]⟩ none none :=
  ⟨rfl, by decide, claim_C9 _ none rfl (by decide)⟩

/-- Counterexample for C9 as stated: a catalog whose only pizza record is
a plain item of an offers-category (`Προσφορές`) yields one parsed deal
in the file-based pipeline but an empty deal list in the dict-based
pipeline, which never feeds plain items to the resolver — the claim's
"holds uniformly in both pipeline revisions" is false. -/
theorem claim_C9_counterexample :
    (efood.parse_catalog
      ⟨"ok", [⟨"", "Προσφορές",
        [⟨"2 Πίτσες γίγας 40cm", "", "", "", some 10, none, []⟩], []⟩]⟩).map
      List.length = .ok 1 ∧
    efood._parse_catalog_dict
      ⟨"ok", [⟨"", "Προσφορές",
        [⟨"2 Πίτσες γίγας 40cm", "", "", "", some 10, none, []⟩], []⟩]⟩
      none none = .ok [] ∧
    efood.isOfferCat ⟨"", "Προσφορές",
      [⟨"2 Πίτσες γίγας 40cm", "", "", "", some 10, none, []⟩], []⟩ = true :=
  ⟨rfl, rfl, by decide⟩

/-! ## C10 — deal ranker -/

/-- Inserting into the descending sort is a permutation of consing. -/
theorem insertDealDesc_perm (d : efood.Deal) :
    ∀ l, (efood.insertDealDesc d l).Perm (d :: l) := by
  intro l
  induction l with
  | nil => exact List.Perm.refl _
  | cons e es ih =>
    unfold efood.insertDealDesc
    by_cases h : e.vfm.vfm_index ≤ d.vfm.vfm_index
    · rw [if_pos h]
    · rw [if_neg h]
      exact (ih.cons e).trans (List.Perm.swap d e es)

/-- The stable descending sort is a permutation of its input. -/
theorem sortDealsDesc_perm (l : List efood.Deal) :
    (efood.sortDealsDesc l).Perm l := by
  induction l with
  | nil => exact List.Perm.refl _
  | cons d ds ih =>
    show (efood.insertDealDesc d (efood.sortDealsDesc ds)).Perm _
    exact (insertDealDesc_perm d _).trans (ih.cons d)

/-- Insertion preserves descending sortedness. -/
theorem insertDealDesc_pairwise (d : efood.Deal) :
    ∀ l, l.Pairwise (fun a b => b.vfm.vfm_index ≤ a.vfm.vfm_index) →
      (efood.insertDealDesc d l).Pairwise
        (fun a b => b.vfm.vfm_index ≤ a.vfm.vfm_index) := by
  intro l
  induction l with
  | nil => intro _; exact List.pairwise_singleton _ _
  | cons e es ih =>
    intro h
    obtain ⟨he, hes⟩ := List.pairwise_cons.mp h
    unfold efood.insertDealDesc
    by_cases hc : e.vfm.vfm_index ≤ d.vfm.vfm_index
    · rw [if_pos hc]
      refine List.pairwise_cons.mpr ⟨?_, h⟩
      intro x hx
      rcases List.mem_cons.mp hx with hx | hx
      · rw [hx]; exact hc
      · exact le_trans (he x hx) hc
    · rw [if_neg hc]
      refine List.pairwise_cons.mpr ⟨?_, ih hes⟩
      intro x hx
      have hx2 := (insertDealDesc_perm d es).mem_iff.mp hx
      rcases List.mem_cons.mp hx2 with hx2 | hx2
      · rw [hx2]; exact le_of_lt (not_le.mp hc)
      · exact he x hx2

/-- The stable descending sort is sorted (descending). -/
theorem sortDealsDesc_pairwise (l : List efood.Deal) :
    (efood.sortDealsDesc l).Pairwise
      (fun a b => b.vfm.vfm_index ≤ a.vfm.vfm_index) := by
  induction l with
  | nil => exact List.Pairwise.nil
  | cons d ds ih => exact insertDealDesc_pairwise d _ ih

/-- Stability of insertion: filtering any key value commutes with the
insertion. -/
theorem insertDealDesc_filter (k : ℚ) (d : efood.Deal) :
    ∀ l, (efood.insertDealDesc d l).filter (fun e => decide (e.vfm.vfm_index = k)) =
      (d :: l).filter (fun e => decide (e.vfm.vfm_index = k)) := by
  intro l
  induction l with
  | nil => rfl
  | cons e es ih =>
    unfold efood.insertDealDesc
    by_cases hc : e.vfm.vfm_index ≤ d.vfm.vfm_index
    · rw [if_pos hc]
    · rw [if_neg hc]
      rw [List.filter_cons, List.filter_cons, ih, List.filter_cons]
      by_cases hd : d.vfm.vfm_index = k
      · have hek : ¬ e.vfm.vfm_index = k := by
          intro hek
          exact hc (le_of_eq (hek.trans hd.symm))
        simp [hd, hek, List.filter_cons]
      · by_cases hek : e.vfm.vfm_index = k <;> simp [hd, hek, List.filter_cons]

/-- Stability of the sort: deals with any given `vfm_index` keep their
relative input order. -/
theorem sortDealsDesc_filter (k : ℚ) (l : List efood.Deal) :
    (efood.sortDealsDesc l).filter (fun e => decide (e.vfm.vfm_index = k)) =
      l.filter (fun e => decide (e.vfm.vfm_index = k)) := by
  induction l with
  | nil => rfl
  | cons d ds ih =>
    show (efood.insertDealDesc d (efood.sortDealsDesc ds)).filter _ = _
    rw [insertDealDesc_filter, List.filter_cons, List.filter_cons, ih]

/-- C10: the ranker is `take limit` of the stable descending sort: it has
exactly `min limit length` elements, the sort is a permutation of the
input, the output is sorted by `vfm_index` descending, equal-key deals
keep their relative input order, and pairwise-distinct `vfm_index` values
make the output strictly descending. -/
theorem claim_C10 (deals : List efood.Deal) (n : ℕ) :
    efood.rankDeals deals n = (efood.sortDealsDesc deals).take n ∧
    (efood.rankDeals deals n).length = min n deals.length ∧
    (efood.sortDealsDesc deals).Perm deals ∧
    (efood.rankDeals deals n).Pairwise
      (fun a b => b.vfm.vfm_index ≤ a.vfm.vfm_index) ∧
    (∀ k, (efood.sortDealsDesc deals).filter (fun e => decide (e.vfm.vfm_index = k)) =
      deals.filter (fun e => decide (e.vfm.vfm_index = k))) ∧
    ((deals.map (fun d => d.vfm.vfm_index)).Nodup →
      (efood.rankDeals deals n).Pairwise
        (fun a b => b.vfm.vfm_index < a.vfm.vfm_index)) := by
  refine ⟨rfl, ?_, sortDealsDesc_perm deals, ?_, fun k => sortDealsDesc_filter k deals, ?_⟩
  · unfold efood.rankDeals
    rw [List.length_take, (sortDealsDesc_perm deals).length_eq]
  · exact ((sortDealsDesc_pairwise deals).sublist (List.take_sublist n _))
  · intro hnd
    have hnd2 : ((efood.sortDealsDesc deals).map (fun d => d.vfm.vfm_index)).Nodup :=
      (((sortDealsDesc_perm deals).map (fun d => d.vfm.vfm_index)).nodup_iff).mpr hnd
    have hne : (efood.sortDealsDesc deals).Pairwise
        (fun a b => a.vfm.vfm_index ≠ b.vfm.vfm_index) :=
      List.pairwise_map.mp hnd2
    have hcomb := (sortDealsDesc_pairwise deals).and hne
    have hlt : (efood.sortDealsDesc deals).Pairwise
        (fun a b => b.vfm.vfm_index < a.vfm.vfm_index) := by
      refine hcomb.imp ?_
      rintro a b ⟨hle, hne2⟩
      exact lt_of_le_of_ne hle (fun heq => hne2 heq.symm)
    exact hlt.sublist (List.take_sublist n _)

/-- Witness for C10 on three deals with pairwise distinct indices. -/
theorem claim_C10_witness :
    (([⟨"a", 1, 30, 10, ⟨1, 30, 0, 0, 0, 0, 5⟩⟩,
       ⟨"b", 1, 30, 10, ⟨1, 30, 0, 0, 0, 0, 7⟩⟩,
       ⟨"c", 1, 30, 10, ⟨1, 30, 0, 0, 0, 0, 6⟩⟩] :
        List efood.Deal).map (fun d => d.vfm.vfm_index)).Nodup ∧
    (efood.rankDeals
      [⟨"a", 1, 30, 10, ⟨1, 30, 0, 0, 0, 0, 5⟩⟩,
       ⟨"b", 1, 30, 10, ⟨1, 30, 0, 0, 0, 0, 7⟩⟩,
       ⟨"c", 1, 30, 10, ⟨1, 30, 0, 0, 0, 0, 6⟩⟩] 2).Pairwise
      (fun a b => b.vfm.vfm_index < a.vfm.vfm_index) ∧
    (efood.rankDeals
      [⟨"a", 1, 30, 10, ⟨1, 30, 0, 0, 0, 0, 5⟩⟩,
       ⟨"b", 1, 30, 10, ⟨1, 30, 0, 0, 0, 0, 7⟩⟩,
       ⟨"c", 1, 30, 10, ⟨1, 30, 0, 0, 0, 0, 6⟩⟩] 2).length = min 2 3 := by
  have h := claim_C10
    [⟨"a", 1, 30, 10, ⟨1, 30, 0, 0, 0, 0, 5⟩⟩,
     ⟨"b", 1, 30, 10, ⟨1, 30, 0, 0, 0, 0, 7⟩⟩,
     ⟨"c", 1, 30, 10, ⟨1, 30, 0, 0, 0, 0, 6⟩⟩] 2
  exact ⟨by decide, h.2.2.2.2.2 (by decide), h.2.1⟩

/-! ## C7 — text extractor contracts -/

/-- The regex classes `\d` and `\s` are disjoint. -/
theorem space_not_digit (c : Char) (h : isPySpace c = true) : c.isDigit = false := by
  unfold isPySpace at h
  simp only [Bool.or_eq_true, decide_eq_true_eq] at h
  rcases h with ((((h | h) | h) | h) | h) | h <;> subst h <;> decide

/-- Dropping whitespace from an all-whitespace run lands on the first
non-whitespace character. -/
theorem dropWhile_all_space (w : List Char) (c : Char) (r : List Char)
    (hw : ∀ x ∈ w, isPySpace x = true) (hc : isPySpace c = false) :
    (w ++ c :: r).dropWhile isPySpace = c :: r := by
  induction w with
  | nil => simp [List.dropWhile_cons, hc]
  | cons s w ih =>
    have hs := hw s (List.mem_cons_self _ _)
    rw [List.cons_append, List.dropWhile_cons]
    simp only [hs, if_true]
    exact ih (fun x hx => hw x (List.mem_cons_of_mem _ hx))

/-- Peeling a digit off the front of a `NumMatch`. -/
theorem numMatch_cons_digit (tail : List Char → Bool) (c : Char) (cs : List Char)
    (hc : c.isDigit = true) :
    NumMatch tail (c :: cs) ↔ (MidMatch tail cs ∨ NumMatch tail cs) := by
  constructor
  · rintro ⟨p, d, w, r, heq, hne, hdig, hsp, htr⟩
    cases p with
    | nil =>
      cases d with
      | nil => exact absurd rfl hne
      | cons d0 d' =>
        simp only [List.nil_append, List.cons_append, List.cons.injEq] at heq
        exact Or.inl ⟨d', w, r, heq.2,
          fun x hx => hdig x (List.mem_cons_of_mem _ hx), hsp, htr⟩
    | cons p0 p' =>
      simp only [List.cons_append, List.cons.injEq] at heq
      exact Or.inr ⟨p', d, w, r, heq.2, hne, hdig, hsp, htr⟩
  · rintro (⟨d, w, r, heq, hdig, hsp, htr⟩ | ⟨p, d, w, r, heq, hne, hdig, hsp, htr⟩)
    · refine ⟨[], c :: d, w, r, by simp [heq], by simp, ?_, hsp, htr⟩
      intro x hx
      rcases List.mem_cons.mp hx with h | h
      · subst h; exact hc
      · exact hdig x h
    · exact ⟨c :: p, d, w, r, by simp [heq], hne, hdig, hsp, htr⟩

/-- Peeling a digit off the front of a `MidMatch`. -/
theorem midMatch_cons_digit (tail : List Char → Bool) (htail : TailOk tail)
    (c : Char) (cs : List Char) (hc : c.isDigit = true) :
    MidMatch tail (c :: cs) ↔ MidMatch tail cs := by
  constructor
  · rintro ⟨d, w, r, heq, hdig, hsp, htr⟩
    cases d with
    | nil =>
      rw [List.nil_append] at heq
      cases w with
      | nil =>
        rw [List.nil_append] at heq
        obtain ⟨c2, r2, hr, hnd, _⟩ := htail r htr
        rw [hr] at heq
        injection heq with h1 _
        rw [h1] at hc
        rw [hc] at hnd
        exact absurd hnd (by simp)
      | cons w0 w' =>
        rw [List.cons_append] at heq
        injection heq with h1 _
        have hw0 := hsp w0 (List.mem_cons_self _ _)
        rw [← h1] at hw0
        rw [space_not_digit c hw0] at hc
        exact absurd hc (by simp)
    | cons d0 d' =>
      simp only [List.cons_append, List.cons.injEq] at heq
      exact ⟨d', w, r, heq.2, fun x hx => hdig x (List.mem_cons_of_mem _ hx), hsp, htr⟩
  · rintro ⟨d, w, r, heq, hdig, hsp, htr⟩
    refine ⟨c :: d, w, r, by simp [heq], ?_, hsp, htr⟩
    intro x hx
    rcases List.mem_cons.mp hx with h | h
    · subst h; exact hc
    · exact hdig x h

/-- Peeling a non-digit off the front of a `NumMatch`. -/
theorem numMatch_cons_nondigit (tail : List Char → Bool) (c : Char)
    (cs : List Char) (hc : c.isDigit = false) :
    NumMatch tail (c :: cs) ↔ NumMatch tail cs := by
  constructor
  · rintro ⟨p, d, w, r, heq, hne, hdig, hsp, htr⟩
    cases p with
    | nil =>
      cases d with
      | nil => exact absurd rfl hne
      | cons d0 d' =>
        simp only [List.nil_append, List.cons_append, List.cons.injEq] at heq
        have := hdig d0 (List.mem_cons_self _ _)
        rw [← heq.1] at this
        rw [this] at hc
        exact absurd hc (by simp)
    | cons p0 p' =>
      simp only [List.cons_append, List.cons.injEq] at heq
      exact ⟨p', d, w, r, heq.2, hne, hdig, hsp, htr⟩
  · rintro ⟨p, d, w, r, heq, hne, hdig, hsp, htr⟩
    exact ⟨c :: p, d, w, r, by simp [heq], hne, hdig, hsp, htr⟩

/-- A failed whitespace-and-tail check at a non-digit head refutes a
`MidMatch`. -/
theorem midMatch_nondigit_check (tail : List Char → Bool) (htail : TailOk tail)
    (c : Char) (cs : List Char) (hc : c.isDigit = false)
    (hchk : tail ((c :: cs).dropWhile isPySpace) = false) :
    ¬ MidMatch tail (c :: cs) := by
  rintro ⟨d, w, r, heq, hdig, hsp, htr⟩
  cases d with
  | cons d0 d' =>
    simp only [List.cons_append, List.cons.injEq] at heq
    have := hdig d0 (List.mem_cons_self _ _)
    rw [← heq.1] at this
    rw [this] at hc
    exact absurd hc (by simp)
  | nil =>
    rw [List.nil_append] at heq
    obtain ⟨c2, r2, hr, _, hns⟩ := htail r htr
    have hdw : (c :: cs).dropWhile isPySpace = r := by
      rw [heq, hr]
      exact dropWhile_all_space w c2 r2 hsp hns
    rw [hdw, htr] at hchk
    exact absurd hchk (by simp)

/-- A successful whitespace-and-tail check yields a `MidMatch` with an
empty digit run. -/
theorem midMatch_of_check (tail : List Char → Bool) (c : Char) (cs : List Char)
    (hchk : tail ((c :: cs).dropWhile isPySpace) = true) :
    MidMatch tail (c :: cs) :=
  ⟨[], (c :: cs).takeWhile isPySpace, (c :: cs).dropWhile isPySpace,
    by rw [List.nil_append, List.takeWhile_append_dropWhile],
    by simp, fun x hx => List.mem_takeWhile_imp hx, hchk⟩

/-- The scanner returns `none` exactly when the text contains no
occurrence of the pattern — jointly for both scanner states. -/
theorem scanAux_none_iff (tail : List Char → Bool) (htail : TailOk tail) :
    ∀ l : List Char,
      ((scanNumAux tail none l = none) ↔ ¬ NumMatch tail l) ∧
      (∀ a, (scanNumAux tail (some a) l = none) ↔
        ¬ (MidMatch tail l ∨ NumMatch tail l)) := by
  intro l
  induction l with
  | nil =>
    constructor
    · constructor
      · rintro _ ⟨p, d, w, r, heq, hne, _, _, _⟩
        have hd : d = [] := by
          have h2 := heq.symm
          simp only [List.append_eq_nil] at h2
          exact h2.1.1.2
        exact hne hd
      · intro _; rfl
    · intro a
      show (if tail [] = true then some a else none) = none ↔ _
      by_cases ht0 : tail [] = true
      · rw [if_pos ht0]
        constructor
        · intro h; exact absurd h (by simp)
        · intro h
          exact absurd (Or.inl ⟨[], [], [], rfl, by simp, by simp, ht0⟩) h
      · rw [if_neg ht0]
        constructor
        · rintro _ (⟨d, w, r, heq, _, _, htr⟩ | ⟨p, d, w, r, heq, hne, _, _, _⟩)
          · have hr : r = [] := by
              have h2 := heq.symm
              simp only [List.append_eq_nil] at h2
              exact h2.2
            rw [hr] at htr
            exact ht0 htr
          · have hd : d = [] := by
              have h2 := heq.symm
              simp only [List.append_eq_nil] at h2
              exact h2.1.1.2
            exact hne hd
        · intro _; rfl
  | cons c cs ih =>
    by_cases hc : c.isDigit = true
    · have e1 : scanNumAux tail none (c :: cs) =
          scanNumAux tail (some (c.toNat - 48)) cs := by
        simp only [scanNumAux, hc, if_true]
      have e2 : ∀ a, scanNumAux tail (some a) (c :: cs) =
          scanNumAux tail (some (10 * a + (c.toNat - 48))) cs := by
        intro a
        simp only [scanNumAux, hc, if_true]
      constructor
      · rw [e1, ih.2 _, numMatch_cons_digit tail c cs hc]
      · intro a
        rw [e2 a, ih.2 _, numMatch_cons_digit tail c cs hc,
          midMatch_cons_digit tail htail c cs hc]
        constructor
        · intro h
          rintro (hm | hm | hm)
          · exact h (Or.inl hm)
          · exact h (Or.inl hm)
          · exact h (Or.inr hm)
        · intro h
          rintro (hm | hm)
          · exact h (Or.inl hm)
          · exact h (Or.inr (Or.inr hm))
    · have hcf : c.isDigit = false := by
        rwa [Bool.not_eq_true] at hc
      have e1 : scanNumAux tail none (c :: cs) = scanNumAux tail none cs := by
        simp only [scanNumAux, hcf]
        simp
      constructor
      · rw [e1, ih.1, numMatch_cons_nondigit tail c cs hcf]
      · intro a
        by_cases hchk : tail ((c :: cs).dropWhile isPySpace) = true
        · have e2 : scanNumAux tail (some a) (c :: cs) = some a := by
            simp only [scanNumAux, hcf]
            simp [hchk]
          rw [e2]
          constructor
          · intro h; exact absurd h (by simp)
          · intro h
            exact absurd (Or.inl (midMatch_of_check tail c cs hchk)) h
        · have hchkf : tail ((c :: cs).dropWhile isPySpace) = false := by
            rwa [Bool.not_eq_true] at hchk
          have e2 : scanNumAux tail (some a) (c :: cs) =
              scanNumAux tail none cs := by
            simp only [scanNumAux, hcf]
            simp [hchkf]
          rw [e2, ih.1]
          constructor
          · intro h
            rintro (hm | hm)
            · exact midMatch_nondigit_check tail htail c cs hcf hchkf hm
            · exact h ((numMatch_cons_nondigit tail c cs hcf).mp hm)
          · intro h hm
            exact h (Or.inr ((numMatch_cons_nondigit tail c cs hcf).mpr hm))

/-- The scanner finds nothing exactly when no pattern occurrence
exists. -/
theorem scanNum_none_iff (tail : List Char → Bool) (htail : TailOk tail)
    (l : List Char) : scanNum tail l = none ↔ ¬ NumMatch tail l :=
  (scanAux_none_iff tail htail l).1

/-- The digit accumulator: `int()` of a cons. -/
theorem natOfDigits_cons (x : Char) (d : List Char) :
    natOfDigits (x :: d) =
      List.foldl (fun m c => 10 * m + (c.toNat - 48)) (x.toNat - 48) d := by
  unfold natOfDigits
  rw [List.foldl_cons]
  norm_num

/-- A successful scan returns the numeric value of an actual occurrence
of the pattern — jointly for both scanner states. -/
theorem scanAux_some_val (tail : List Char → Bool) :
    ∀ l : List Char,
      (∀ n, scanNumAux tail none l = some n →
        ∃ p d w r, l = p ++ d ++ w ++ r ∧ d ≠ [] ∧ (∀ c ∈ d, c.isDigit = true) ∧
          (∀ c ∈ w, isPySpace c = true) ∧ tail r = true ∧ natOfDigits d = n) ∧
      (∀ a n, scanNumAux tail (some a) l = some n →
        (∃ d w r, l = d ++ w ++ r ∧ (∀ c ∈ d, c.isDigit = true) ∧
          (∀ c ∈ w, isPySpace c = true) ∧ tail r = true ∧
          List.foldl (fun m c => 10 * m + (c.toNat - 48)) a d = n) ∨
        (∃ p d w r, l = p ++ d ++ w ++ r ∧ d ≠ [] ∧ (∀ c ∈ d, c.isDigit = true) ∧
          (∀ c ∈ w, isPySpace c = true) ∧ tail r = true ∧ natOfDigits d = n)) := by
  intro l
  induction l with
  | nil =>
    constructor
    · intro n h; exact absurd h (by simp [scanNumAux])
    · intro a n h
      show _ ∨ _
      by_cases ht0 : tail [] = true
      · have h2 : a = n := by
          simpa [scanNumAux, ht0] using h
        exact Or.inl ⟨[], [], [], rfl, by simp, by simp, ht0, h2⟩
      · rw [show scanNumAux tail (some a) [] = if tail [] = true then some a else none
            from rfl, if_neg ht0] at h
        exact absurd h (by simp)
  | cons c cs ih =>
    by_cases hc : c.isDigit = true
    · have e1 : scanNumAux tail none (c :: cs) =
          scanNumAux tail (some (c.toNat - 48)) cs := by
        simp only [scanNumAux, hc, if_true]
      have e2 : ∀ a, scanNumAux tail (some a) (c :: cs) =
          scanNumAux tail (some (10 * a + (c.toNat - 48))) cs := by
        intro a
        simp only [scanNumAux, hc, if_true]
      constructor
      · intro n h
        rw [e1] at h
        rcases ih.2 _ n h with ⟨d, w, r, heq, hdig, hsp, htr, hval⟩ |
          ⟨p, d, w, r, heq, hne, hdig, hsp, htr, hval⟩
        · refine ⟨[], c :: d, w, r, by simp [heq], by simp, ?_, hsp, htr, ?_⟩
          · intro x hx
            rcases List.mem_cons.mp hx with hx | hx
            · subst hx; exact hc
            · exact hdig x hx
          · rw [natOfDigits_cons]; exact hval
        · refine ⟨c :: p, d, w, r, by simp [heq], hne, hdig, hsp, htr, hval⟩
      · intro a n h
        rw [e2 a] at h
        rcases ih.2 _ n h with ⟨d, w, r, heq, hdig, hsp, htr, hval⟩ |
          ⟨p, d, w, r, heq, hne, hdig, hsp, htr, hval⟩
        · refine Or.inl ⟨c :: d, w, r, by simp [heq], ?_, hsp, htr, ?_⟩
          · intro x hx
            rcases List.mem_cons.mp hx with hx | hx
            · subst hx; exact hc
            · exact hdig x hx
          · rw [List.foldl_cons]; exact hval
        · exact Or.inr ⟨c :: p, d, w, r, by simp [heq], hne, hdig, hsp, htr, hval⟩
    · have hcf : c.isDigit = false := by rwa [Bool.not_eq_true] at hc
      have e1 : scanNumAux tail none (c :: cs) = scanNumAux tail none cs := by
        simp only [scanNumAux, hcf]
        simp
      constructor
      · intro n h
        rw [e1] at h
        obtain ⟨p, d, w, r, heq, hne, hdig, hsp, htr, hval⟩ := ih.1 n h
        exact ⟨c :: p, d, w, r, by simp [heq], hne, hdig, hsp, htr, hval⟩
      · intro a n h
        by_cases hchk : tail ((c :: cs).dropWhile isPySpace) = true
        · have e2 : scanNumAux tail (some a) (c :: cs) = some a := by
            simp only [scanNumAux, hcf]
            simp [hchk]
          rw [e2] at h
          injection h with h2
          refine Or.inl ⟨[], (c :: cs).takeWhile isPySpace,
            (c :: cs).dropWhile isPySpace,
            by rw [List.nil_append, List.takeWhile_append_dropWhile],
            by simp, fun x hx => List.mem_takeWhile_imp hx, hchk, h2⟩
        · have hchkf : tail ((c :: cs).dropWhile isPySpace) = false := by
            rwa [Bool.not_eq_true] at hchk
          have e2 : scanNumAux tail (some a) (c :: cs) =
              scanNumAux tail none cs := by
            simp only [scanNumAux, hcf]
            simp [hchkf]
          rw [e2] at h
          obtain ⟨p, d, w, r, heq, hne, hdig, hsp, htr, hval⟩ := ih.1 n h
          exact Or.inr ⟨c :: p, d, w, r, by simp [heq], hne, hdig, hsp, htr, hval⟩

/-- A successful scan returns the value of an occurrence of the
pattern. -/
theorem scanNum_some_val (tail : List Char → Bool)
    (l : List Char) (n : ℕ) (h : scanNum tail l = some n) :
    ∃ p d w r, l = p ++ d ++ w ++ r ∧ d ≠ [] ∧ (∀ c ∈ d, c.isDigit = true) ∧
      (∀ c ∈ w, isPySpace c = true) ∧ tail r = true ∧ natOfDigits d = n :=
  (scanAux_some_val tail l).1 n h

/-- Mid-run: spaces then the tail pattern close off the current run. -/
theorem scan_spaces_run (tail : List Char → Bool) (htail : TailOk tail)
    (a : ℕ) (w r : List Char) (hw : ∀ x ∈ w, isPySpace x = true)
    (htr : tail r = true) :
    scanNumAux tail (some a) (w ++ r) = some a := by
  obtain ⟨c2, r2, hr, hnd, hns⟩ := htail r htr
  cases w with
  | nil =>
    rw [List.nil_append, hr]
    have hdw : (c2 :: r2).dropWhile isPySpace = c2 :: r2 := by
      simp [List.dropWhile_cons, hns]
    simp only [scanNumAux, hnd, hdw]
    rw [← hr]
    simp [htr]
  | cons s w' =>
    have hs := hw s (List.mem_cons_self _ _)
    have hsnd := space_not_digit s hs
    rw [List.cons_append]
    have hdw : (s :: (w' ++ r)).dropWhile isPySpace = c2 :: r2 := by
      rw [List.dropWhile_cons]
      simp only [hs, if_true]
      rw [hr]
      exact dropWhile_all_space w' c2 r2
        (fun x hx => hw x (List.mem_cons_of_mem _ hx)) hns
    simp only [scanNumAux, hsnd, hdw]
    rw [← hr]
    simp [htr]

/-- Mid-run: consuming the rest of the digit run accumulates its value. -/
theorem scan_digits_run (tail : List Char → Bool) (htail : TailOk tail) :
    ∀ (d : List Char) (a : ℕ) (w r : List Char), (∀ x ∈ d, x.isDigit = true) →
      (∀ x ∈ w, isPySpace x = true) → tail r = true →
      scanNumAux tail (some a) (d ++ w ++ r) =
        some (List.foldl (fun m c => 10 * m + (c.toNat - 48)) a d) := by
  intro d
  induction d with
  | nil =>
    intro a w r _ hw htr
    rw [List.nil_append]
    exact scan_spaces_run tail htail a w r hw htr
  | cons x d' ih =>
    intro a w r hd hw htr
    have hx := hd x (List.mem_cons_self _ _)
    simp only [List.cons_append, List.append_assoc]
    have e : scanNumAux tail (some a) (x :: (d' ++ (w ++ r))) =
        scanNumAux tail (some (10 * a + (x.toNat - 48))) (d' ++ (w ++ r)) := by
      simp only [scanNumAux, hx, if_true]
    rw [e, List.foldl_cons]
    have h2 := ih (10 * a + (x.toNat - 48)) w r
      (fun y hy => hd y (List.mem_cons_of_mem _ hy)) hw htr
    simpa [List.append_assoc] using h2

/-- The first digit run that is followed by whitespace and the tail
pattern determines the scanner's result: text with no digits before it
cannot produce anything else. -/
theorem scanNum_first (tail : List Char → Bool) (htail : TailOk tail) :
    ∀ (p : List Char) (d w r : List Char), (∀ c ∈ p, c.isDigit = false) →
      d ≠ [] → (∀ c ∈ d, c.isDigit = true) → (∀ c ∈ w, isPySpace c = true) →
      tail r = true →
      scanNum tail (p ++ d ++ w ++ r) = some (natOfDigits d) := by
  intro p
  induction p with
  | nil =>
    intro d w r _ hne hdig hsp htr
    cases d with
    | nil => exact absurd rfl hne
    | cons x d' =>
      unfold scanNum
      simp only [List.nil_append, List.cons_append, List.append_assoc]
      have hx := hdig x (List.mem_cons_self _ _)
      have e : scanNumAux tail none (x :: (d' ++ (w ++ r))) =
          scanNumAux tail (some (x.toNat - 48)) (d' ++ (w ++ r)) := by
        simp only [scanNumAux, hx, if_true]
      rw [e, natOfDigits_cons]
      have h2 := scan_digits_run tail htail d' (x.toNat - 48) w r
        (fun y hy => hdig y (List.mem_cons_of_mem _ hy)) hsp htr
      simpa [List.append_assoc] using h2
  | cons c p' ih =>
    intro d w r hp hne hdig hsp htr
    have hcf := hp c (List.mem_cons_self _ _)
    unfold scanNum
    simp only [List.cons_append, List.append_assoc]
    have e : scanNumAux tail none (c :: (p' ++ (d ++ (w ++ r)))) =
        scanNumAux tail none (p' ++ (d ++ (w ++ r))) := by
      simp only [scanNumAux, hcf]
      simp
    rw [e]
    have h2 := ih d w r (fun y hy => hp y (List.mem_cons_of_mem _ hy)) hne hdig hsp htr
    unfold scanNum at h2
    simpa [List.append_assoc] using h2

/-- The `cm` tail pattern starts with a non-digit, non-space character. -/
theorem tailOk_cm : TailOk tailCm := by
  intro r htr
  match r with
  | [] => simp [tailCm] at htr
  | [c] => simp [tailCm] at htr
  | c :: m :: rest =>
    unfold tailCm at htr
    rw [Bool.and_eq_true, Bool.or_eq_true] at htr
    refine ⟨c, m :: rest, rfl, ?_, ?_⟩ <;>
      rcases htr.1 with h | h <;>
        simp only [decide_eq_true_eq] at h <;> subst h <;> decide

/-- The `[Ππ]ίτσ` tail pattern starts with a non-digit, non-space
character. -/
theorem tailOk_pizza : TailOk tailPizza := by
  intro r htr
  match r with
  | [] => simp [tailPizza] at htr
  | p :: rest =>
    unfold tailPizza at htr
    rw [Bool.and_eq_true, Bool.or_eq_true] at htr
    refine ⟨p, rest, rfl, ?_, ?_⟩ <;>
      rcases htr.1 with h | h <;>
        simp only [decide_eq_true_eq] at h <;> subst h <;> decide

/-- Full case analysis of the ordered keyword chain of
`extract_size_from_text`: each result corresponds exactly to the
highest-priority matching keyword of the lowercased text. -/
theorem extract_size_cases (t : String) :
    (efood.extract_size_from_text t = some "γίγας" ↔
      (hasSub "γίγας" (pyLower t) || hasSub "γιγας" (pyLower t)) = true) ∧
    (efood.extract_size_from_text t = some "οικογενειακή" ↔
      ((hasSub "γίγας" (pyLower t) || hasSub "γιγας" (pyLower t)) = false ∧
       hasSub "οικογενειακ" (pyLower t) = true)) ∧
    (efood.extract_size_from_text t = some "μεγάλη" ↔
      ((hasSub "γίγας" (pyLower t) || hasSub "γιγας" (pyLower t)) = false ∧
       hasSub "οικογενειακ" (pyLower t) = false ∧
       hasSub "μεγάλ" (pyLower t) = true)) ∧
    (efood.extract_size_from_text t = some "κανονική" ↔
      ((hasSub "γίγας" (pyLower t) || hasSub "γιγας" (pyLower t)) = false ∧
       hasSub "οικογενειακ" (pyLower t) = false ∧
       hasSub "μεγάλ" (pyLower t) = false ∧
       hasSub "κανονικ" (pyLower t) = true)) ∧
    (efood.extract_size_from_text t = some "μικρή" ↔
      ((hasSub "γίγας" (pyLower t) || hasSub "γιγας" (pyLower t)) = false ∧
       hasSub "οικογενειακ" (pyLower t) = false ∧
       hasSub "μεγάλ" (pyLower t) = false ∧
       hasSub "κανονικ" (pyLower t) = false ∧
       hasSub "μικρ" (pyLower t) = true)) ∧
    (efood.extract_size_from_text t = none ↔
      ((hasSub "γίγας" (pyLower t) || hasSub "γιγας" (pyLower t)) = false ∧
       hasSub "οικογενειακ" (pyLower t) = false ∧
       hasSub "μεγάλ" (pyLower t) = false ∧
       hasSub "κανονικ" (pyLower t) = false ∧
       hasSub "μικρ" (pyLower t) = false)) := by
  unfold efood.extract_size_from_text
  dsimp only
  split_ifs with h1 h2 h3 h4 h5
  · simp [h1]
  · have f1 : (hasSub "γίγας" (pyLower t) || hasSub "γιγας" (pyLower t)) = false := by
      rwa [Bool.not_eq_true] at h1
    simp [f1, h2]
  · have f1 : (hasSub "γίγας" (pyLower t) || hasSub "γιγας" (pyLower t)) = false := by
      rwa [Bool.not_eq_true] at h1
    have f2 : hasSub "οικογενειακ" (pyLower t) = false := by
      rwa [Bool.not_eq_true] at h2
    simp [f1, f2, h3]
  · have f1 : (hasSub "γίγας" (pyLower t) || hasSub "γιγας" (pyLower t)) = false := by
      rwa [Bool.not_eq_true] at h1
    have f2 : hasSub "οικογενειακ" (pyLower t) = false := by
      rwa [Bool.not_eq_true] at h2
    have f3 : hasSub "μεγάλ" (pyLower t) = false := by
      rwa [Bool.not_eq_true] at h3
    simp [f1, f2, f3, h4]
  · have f1 : (hasSub "γίγας" (pyLower t) || hasSub "γιγας" (pyLower t)) = false := by
      rwa [Bool.not_eq_true] at h1
    have f2 : hasSub "οικογενειακ" (pyLower t) = false := by
      rwa [Bool.not_eq_true] at h2
    have f3 : hasSub "μεγάλ" (pyLower t) = false := by
      rwa [Bool.not_eq_true] at h3
    have f4 : hasSub "κανονικ" (pyLower t) = false := by
      rwa [Bool.not_eq_true] at h4
    simp [f1, f2, f3, f4, h5]
  · have f1 : (hasSub "γίγας" (pyLower t) || hasSub "γιγας" (pyLower t)) = false := by
      rwa [Bool.not_eq_true] at h1
    have f2 : hasSub "οικογενειακ" (pyLower t) = false := by
      rwa [Bool.not_eq_true] at h2
    have f3 : hasSub "μεγάλ" (pyLower t) = false := by
      rwa [Bool.not_eq_true] at h3
    have f4 : hasSub "κανονικ" (pyLower t) = false := by
      rwa [Bool.not_eq_true] at h4
    have f5 : hasSub "μικρ" (pyLower t) = false := by
      rwa [Bool.not_eq_true] at h5
    simp [f1, f2, f3, f4, f5]

/-- C7: the extractor contracts.  (i) `extract_size_from_text` is a
case-insensitive substring match with the fixed tie-break priority
γίγας/γιγας, οικογενειακ*, μεγάλ*, κανονικ*, μικρ*: each of the six
possible results (five keywords and `none`) is fully characterized, so a
text matching several keywords returns the highest-priority one, and
`none` is returned exactly when no keyword matches; (ii) `parse_diameter`
returns `none` exactly when the text contains no digit run followed
(after optional whitespace) by a case-insensitive `cm`; (iii) every
returned diameter is the integer value of such an occurrence; (iv) when
the text has no digit before the occurrence, the returned diameter is
exactly that first occurrence's value; (v) `extract_quantity_from_title`
defaults to 1 when the digits-then-pizza-stem pattern is absent, returns
the digits of an actual occurrence of the pattern when one is present,
and returns exactly the digits of the first occurrence when no digit
precedes it; and the spec's concrete examples hold. -/
theorem claim_C7 (t : String) (n : ℕ) (p d w r : List Char) :
    (efood.extract_size_from_text t = some "γίγας" ↔
      (hasSub "γίγας" (pyLower t) || hasSub "γιγας" (pyLower t)) = true) ∧
    (efood.extract_size_from_text t = some "οικογενειακή" ↔
      ((hasSub "γίγας" (pyLower t) || hasSub "γιγας" (pyLower t)) = false ∧
       hasSub "οικογενειακ" (pyLower t) = true)) ∧
    (efood.extract_size_from_text t = some "μεγάλη" ↔
      ((hasSub "γίγας" (pyLower t) || hasSub "γιγας" (pyLower t)) = false ∧
       hasSub "οικογενειακ" (pyLower t) = false ∧
       hasSub "μεγάλ" (pyLower t) = true)) ∧
    (efood.extract_size_from_text t = some "κανονική" ↔
      ((hasSub "γίγας" (pyLower t) || hasSub "γιγας" (pyLower t)) = false ∧
       hasSub "οικογενειακ" (pyLower t) = false ∧
       hasSub "μεγάλ" (pyLower t) = false ∧
       hasSub "κανονικ" (pyLower t) = true)) ∧
    (efood.extract_size_from_text t = some "μικρή" ↔
      ((hasSub "γίγας" (pyLower t) || hasSub "γιγας" (pyLower t)) = false ∧
       hasSub "οικογενειακ" (pyLower t) = false ∧
       hasSub "μεγάλ" (pyLower t) = false ∧
       hasSub "κανονικ" (pyLower t) = false ∧
       hasSub "μικρ" (pyLower t) = true)) ∧
    (efood.extract_size_from_text t = none ↔
      ((hasSub "γίγας" (pyLower t) || hasSub "γιγας" (pyLower t)) = false ∧
       hasSub "οικογενειακ" (pyLower t) = false ∧
       hasSub "μεγάλ" (pyLower t) = false ∧
       hasSub "κανονικ" (pyLower t) = false ∧
       hasSub "μικρ" (pyLower t) = false)) ∧
    (vfm.parse_diameter t = none ↔ ¬ NumMatch tailCm t.toList) ∧
    (vfm.parse_diameter t = some n →
      ∃ p2 d2 w2 r2, t.toList = p2 ++ d2 ++ w2 ++ r2 ∧ d2 ≠ [] ∧
        (∀ c ∈ d2, c.isDigit = true) ∧ (∀ c ∈ w2, isPySpace c = true) ∧
        tailCm r2 = true ∧ natOfDigits d2 = n) ∧
    ((∀ c ∈ p, c.isDigit = false) → d ≠ [] → (∀ c ∈ d, c.isDigit = true) →
      (∀ c ∈ w, isPySpace c = true) → tailCm r = true →
      vfm.parse_diameter (String.mk (p ++ d ++ w ++ r)) = some (natOfDigits d)) ∧
    (¬ NumMatch tailPizza t.toList → efood.extract_quantity_from_title t = 1) ∧
    (NumMatch tailPizza t.toList →
      ∃ p2 d2 w2 r2, t.toList = p2 ++ d2 ++ w2 ++ r2 ∧ d2 ≠ [] ∧
        (∀ c ∈ d2, c.isDigit = true) ∧ (∀ c ∈ w2, isPySpace c = true) ∧
        tailPizza r2 = true ∧
        efood.extract_quantity_from_title t = natOfDigits d2) ∧
    ((∀ c ∈ p, c.isDigit = false) → d ≠ [] → (∀ c ∈ d, c.isDigit = true) →
      (∀ c ∈ w, isPySpace c = true) → tailPizza r = true →
      efood.extract_quantity_from_title (String.mk (p ++ d ++ w ++ r)) =
        natOfDigits d) ∧
    vfm.parse_diameter "Πίτσα Γίγας (40cm)" = some 40 ∧
    efood.extract_quantity_from_title "3 Πίτσες οικογενειακές" = 3 ∧
    efood.extract_size_from_text "οικογενειακή" = some "οικογενειακή" ∧
    vfm.parse_diameter "19 εκ 30CM" = some 30 := by
  obtain ⟨k1, k2, k3, k4, k5, k6⟩ := extract_size_cases t
  refine ⟨k1, k2, k3, k4, k5, k6, ?_, ?_, ?_, ?_, ?_, ?_,
    by decide, by decide, by decide, by decide⟩
  · exact scanNum_none_iff tailCm tailOk_cm t.toList
  · intro h
    exact scanNum_some_val tailCm t.toList n h
  · intro hp hne hdig hsp htr
    exact scanNum_first tailCm tailOk_cm p d w r hp hne hdig hsp htr
  · intro h
    unfold efood.extract_quantity_from_title
    have h2 : scanNum tailPizza t.toList = none :=
      (scanNum_none_iff tailPizza tailOk_pizza t.toList).mpr h
    rw [h2]
  · intro h
    cases hs : scanNum tailPizza t.toList with
    | none => exact absurd h ((scanNum_none_iff tailPizza tailOk_pizza t.toList).mp hs)
    | some n0 =>
      obtain ⟨p2, d2, w2, r2, heq, hne, hdig, hsp, htr, hval⟩ :=
        scanNum_some_val tailPizza t.toList n0 hs
      refine ⟨p2, d2, w2, r2, heq, hne, hdig, hsp, htr, ?_⟩
      unfold efood.extract_quantity_from_title
      rw [hs, hval]
  · intro hp hne hdig hsp htr
    have hs := scanNum_first tailPizza tailOk_pizza p d w r hp hne hdig hsp htr
    unfold efood.extract_quantity_from_title
    have he : (String.mk (p ++ d ++ w ++ r)).toList = p ++ d ++ w ++ r := rfl
    rw [he, hs]

/-- Witness for C7: the diameter first-occurrence contract at the
decomposition of `Πίτσα Γίγας (40cm)`, the quantity first-occurrence
contract at the decomposition of `3 Πίτσες οικογενειακές`, the quantity
occurrence contract on the same title, and the quantity default on a
title with no digit-pizza pattern. -/
theorem claim_C7_witness :
    ((∀ c ∈ ("Πίτσα Γίγας (".toList : List Char), c.isDigit = false) ∧
     (['4', '0'] : List Char) ≠ [] ∧
     (∀ c ∈ (['4', '0'] : List Char), c.isDigit = true) ∧
     (∀ c ∈ ([] : List Char), isPySpace c = true) ∧
     tailCm "cm)".toList = true) ∧
    vfm.parse_diameter (String.mk ("Πίτσα Γίγας (".toList ++ ['4', '0'] ++ [] ++ "cm)".toList)) =
      some (natOfDigits ['4', '0']) ∧
    ((∀ c ∈ ([] : List Char), c.isDigit = false) ∧
     (['3'] : List Char) ≠ [] ∧
     (∀ c ∈ (['3'] : List Char), c.isDigit = true) ∧
     (∀ c ∈ ([' '] : List Char), isPySpace c = true) ∧
     tailPizza "Πίτσες οικογενειακές".toList = true) ∧
    efood.extract_quantity_from_title
      (String.mk ([] ++ ['3'] ++ [' '] ++ "Πίτσες οικογενειακές".toList)) =
      natOfDigits ['3'] ∧
    NumMatch tailPizza ("3 Πίτσες οικογενειακές" : String).toList ∧
    (∃ p2 d2 w2 r2,
      ("3 Πίτσες οικογενειακές" : String).toList = p2 ++ d2 ++ w2 ++ r2 ∧
      d2 ≠ [] ∧ (∀ c ∈ d2, c.isDigit = true) ∧ (∀ c ∈ w2, isPySpace c = true) ∧
      tailPizza r2 = true ∧
      efood.extract_quantity_from_title "3 Πίτσες οικογενειακές" = natOfDigits d2) ∧
    ¬ NumMatch tailPizza ("Σκέτη μεγάλη" : String).toList ∧
    efood.extract_quantity_from_title "Σκέτη μεγάλη" = 1 := by
  have hnm : ¬ NumMatch tailPizza ("Σκέτη μεγάλη" : String).toList :=
    (scanNum_none_iff tailPizza tailOk_pizza _).mp (by decide)
  have hm : NumMatch tailPizza ("3 Πίτσες οικογενειακές" : String).toList :=
    ⟨[], ['3'], [' '], "Πίτσες οικογενειακές".toList,
      by decide, by decide, by decide, by decide, by decide⟩
  have h1 := claim_C7 "Σκέτη μεγάλη" 0 "Πίτσα Γίγας (".toList ['4', '0'] [] "cm)".toList
  have h2 := claim_C7 "3 Πίτσες οικογενειακές" 0 [] ['3'] [' ']
    "Πίτσες οικογενειακές".toList
  obtain ⟨_, _, _, _, _, _, _, _, c9, c10, _, _, _⟩ := h1
  obtain ⟨_, _, _, _, _, _, _, _, _, _, c11, c12, _⟩ := h2
  refine ⟨⟨by decide, by decide, by decide, by decide, by decide⟩, ?_,
    ⟨by decide, by decide, by decide, by decide, by decide⟩, ?_, hm, ?_, hnm, ?_⟩
  · exact c9 (by decide) (by decide) (by decide) (by decide) (by decide)
  · exact c12 (by decide) (by decide) (by decide) (by decide) (by decide)
  · exact c11 hm
  · exact c10 hnm

/-- Witness for C2 at the spec's end-to-end example `2 × 40cm` at
`18.00`. -/
theorem claim_C2_witness :
    (0 : ℚ) < 18 ∧
    (∃ m, vfm.calculate_vfm 2 40 18 none = .ok m ∧
      |((m.total_area_cm2 : ℚ) : ℝ) - (2 : ℝ) * (Real.pi * ((40 : ℝ) / 2) ^ 2)| ≤ 1 / 200 ∧
      m.area_per_euro =
        vfm.round2 ((2 : ℝ) * (Real.pi * ((40 : ℝ) / 2) ^ 2) / ((18 : ℚ) : ℝ)) ∧
      m.vfm_index =
        vfm.round2 ((2 : ℝ) * (Real.pi * ((40 : ℝ) / 2) ^ 2) / ((18 : ℚ) : ℝ) *
          ((vfm.ratingOrFive none / 5 : ℚ) : ℝ))) := by
  refine ⟨by norm_num, ?_⟩
  have h := (claim_C2 2 40 18 none).2 (by norm_num)
  simpa using h
